import Mathlib

/-!
# hindsight: bunyan-rotate and bunyan-unlink

A shallow embedding of `src/bunyan-rotate/rotate.c` and
`src/bunyan-unlink/unlink.c`.  Bytes are natural numbers (an `unsigned char`
is a number below 256), fixed-width words carry an explicit `% 2 ^ w`, and the
operating system is an explicit oracle that is consumed one system call at a
time.
-/

namespace Hindsight

/-! ## Bytes and words -/

/-- An `unsigned char`; every byte built by this development is below 256. -/
abbrev Byte := Nat

/-- Conversion of a C value to `uint32_t`. -/
def u32 (n : Nat) : Nat := n % 2 ^ 32

/-- The four bytes of `htole32 w` as `fwrite` sends them, lowest byte first. -/
def le32 (w : Nat) : List Byte :=
  [w % 256, w / 256 % 256, w / 65536 % 256, w / 16777216 % 256]

/-! ## zlib `crc32` -/

/-- One bit of the reflected CRC-32 division, polynomial `0xedb88320`. -/
def crcBit (c : Nat) : Nat :=
  if c % 2 = 1 then (c / 2) ^^^ 0xedb88320 else c / 2

/-- One byte of the CRC-32 register update. -/
def crcByte (c : Nat) (b : Byte) : Nat :=
  crcBit (crcBit (crcBit (crcBit (crcBit (crcBit (crcBit (crcBit (c ^^^ (b % 256)))))))))

/-- The function `crc32(crc, buf, len)` of zlib: the register is the complement of the running
value, so `crc32(0L, Z_NULL, 0)` is `0` and a call resumes where the last one stopped. -/
def crc32 (crc : Nat) (buf : List Byte) : Nat :=
  (buf.foldl crcByte (u32 crc ^^^ 0xffffffff)) ^^^ 0xffffffff

/-! ## `printf` conversions -/

/-- One lowercase hexadecimal digit. -/
def hexDigit (d : Nat) : Char :=
  if d < 10 then Char.ofNat (48 + d) else Char.ofNat (87 + d)

/-- The conversion `%02x` of an `unsigned char`. -/
def fmt02x (b : Byte) : List Char :=
  [hexDigit (b / 16 % 16), hexDigit (b % 16)]

/-- The conversion `%llu`. -/
def fmtLlu (n : Nat) : List Char := (Nat.toDigits 10 n)


/-! ## OpenSSL digests

`MD5_*` and `SHA256_*` are library calls; they are embedded as the functions of RFC 1321 and
FIPS 180-4 that they implement. -/

/-- Addition of `uint32_t`. -/
def add32 (a b : Nat) : Nat := (a + b) % 2 ^ 32

/-- Complement of a `uint32_t`. -/
def not32 (a : Nat) : Nat := a ^^^ 0xffffffff

/-- Left rotation of a `uint32_t`. -/
def rotl32 (x n : Nat) : Nat := ((x <<< n) ||| (x >>> (32 - n))) % 2 ^ 32

/-- Right rotation of a `uint32_t`. -/
def rotr32 (x n : Nat) : Nat := ((x >>> n) ||| (x <<< (32 - n))) % 2 ^ 32

/-- Big-endian bytes of `n`, `k` of them. -/
def beBytes : Nat → Nat → List Byte
  | 0, _ => []
  | k + 1, n => n / 256 ^ k % 256 :: beBytes k n

/-- Little-endian bytes of `n`, `k` of them. -/
def leBytes : Nat → Nat → List Byte
  | 0, _ => []
  | k + 1, n => n % 256 :: leBytes k (n / 256)

/-- The number whose big-endian bytes are `bs`. -/
def beWord (bs : List Byte) : Nat := bs.foldl (fun acc b => acc * 256 + b % 256) 0

/-- The number whose little-endian bytes are `bs`. -/
def leWord (bs : List Byte) : Nat := bs.foldr (fun b acc => b % 256 + 256 * acc) 0

/-- Cuts `bs` into pieces of `k` bytes; `fuel` bounds the number of pieces. -/
def pieces (k : Nat) : Nat → List Byte → List (List Byte)
  | 0, _ => []
  | _ + 1, [] => []
  | fuel + 1, b :: bs => (b :: bs).take k :: pieces k fuel ((b :: bs).drop k)

/-- The zero bytes of the Merkle–Damgård padding for a message of `len` bytes. -/
def padZeros (len : Nat) : Nat := (119 - len % 64) % 64

/-- The sine table of MD5. -/
def md5K : List Nat :=
  [0xd76aa478, 0xe8c7b756, 0x242070db, 0xc1bdceee, 0xf57c0faf, 0x4787c62a, 0xa8304613, 0xfd469501,
   0x698098d8, 0x8b44f7af, 0xffff5bb1, 0x895cd7be, 0x6b901122, 0xfd987193, 0xa679438e, 0x49b40821,
   0xf61e2562, 0xc040b340, 0x265e5a51, 0xe9b6c7aa, 0xd62f105d, 0x02441453, 0xd8a1e681, 0xe7d3fbc8,
   0x21e1cde6, 0xc33707d6, 0xf4d50d87, 0x455a14ed, 0xa9e3e905, 0xfcefa3f8, 0x676f02d9, 0x8d2a4c8a,
   0xfffa3942, 0x8771f681, 0x6d9d6122, 0xfde5380c, 0xa4beea44, 0x4bdecfa9, 0xf6bb4b60, 0xbebfbc70,
   0x289b7ec6, 0xeaa127fa, 0xd4ef3085, 0x04881d05, 0xd9d4d039, 0xe6db99e5, 0x1fa27cf8, 0xc4ac5665,
   0xf4292244, 0x432aff97, 0xab9423a7, 0xfc93a039, 0x655b59c3, 0x8f0ccc92, 0xffeff47d, 0x85845dd1,
   0x6fa87e4f, 0xfe2ce6e0, 0xa3014314, 0x4e0811a1, 0xf7537e82, 0xbd3af235, 0x2ad7d2bb, 0xeb86d391]

/-- The per-step rotation amounts of MD5. -/
def md5S : List Nat :=
  [7, 12, 17, 22, 7, 12, 17, 22, 7, 12, 17, 22, 7, 12, 17, 22,
   5, 9, 14, 20, 5, 9, 14, 20, 5, 9, 14, 20, 5, 9, 14, 20,
   4, 11, 16, 23, 4, 11, 16, 23, 4, 11, 16, 23, 4, 11, 16, 23,
   6, 10, 15, 21, 6, 10, 15, 21, 6, 10, 15, 21, 6, 10, 15, 21]

/-- The four chaining words of MD5. -/
structure Md5State where
  a : Nat
  b : Nat
  c : Nat
  d : Nat
  deriving DecidableEq, Repr

/-- The round function of step `i`. -/
def md5F (i b c d : Nat) : Nat :=
  if i < 16 then (b &&& c) ||| (not32 b &&& d)
  else if i < 32 then (d &&& b) ||| (not32 d &&& c)
  else if i < 48 then b ^^^ c ^^^ d
  else c ^^^ (b ||| not32 d)

/-- The message word used by step `i`. -/
def md5G (i : Nat) : Nat :=
  if i < 16 then i
  else if i < 32 then (5 * i + 1) % 16
  else if i < 48 then (3 * i + 5) % 16
  else (7 * i) % 16

/-- One of the 64 steps of the MD5 compression function. -/
def md5Step (m : List Nat) (s : Md5State) (i : Nat) : Md5State :=
  { a := s.d
    b := add32 s.b (rotl32 ((s.a + md5F i s.b s.c s.d + md5K.getD i 0 + m.getD (md5G i) 0) % 2 ^ 32)
          (md5S.getD i 0))
    c := s.b
    d := s.c }

/-- The MD5 compression of one 64-byte block. -/
def md5Block (s : Md5State) (blk : List Byte) : Md5State :=
  let m := (pieces 4 16 blk).map leWord
  let t := (List.range 64).foldl (md5Step m) s
  { a := add32 s.a t.a, b := add32 s.b t.b, c := add32 s.c t.c, d := add32 s.d t.d }

/-- The digest MD5 of a message (RFC 1321). -/
def md5 (msg : List Byte) : List Byte :=
  let padded := msg ++ 0x80 :: List.replicate (padZeros msg.length) 0
    ++ leBytes 8 (8 * msg.length % 2 ^ 64)
  let s := (pieces 64 (padded.length / 64) padded).foldl md5Block
    { a := 0x67452301, b := 0xefcdab89, c := 0x98badcfe, d := 0x10325476 }
  leBytes 4 s.a ++ leBytes 4 s.b ++ leBytes 4 s.c ++ leBytes 4 s.d

/-- The round constants of SHA-256, the first 32 bits of the fractional parts of the cube roots
of the first 64 primes, in decimal: the first is `0x428a2f98`, the last `0xc67178f2`. -/
def sha256K : List Nat :=
  [1116352408, 1899447441, 3049323471, 3921009573, 961987163, 1508970993,
   2453635748, 2870763221, 3624381080, 310598401, 607225278, 1426881987,
   1925078388, 2162078206, 2614888103, 3248222580, 3835390401, 4022224774,
   264347078, 604807628, 770255983, 1249150122, 1555081692, 1996064986,
   2554220882, 2821834349, 2952996808, 3210313671, 3336571891, 3584528711,
   113926993, 338241895, 666307205, 773529912, 1294757372, 1396182291,
   1695183700, 1986661051, 2177026350, 2456956037, 2730485921, 2820302411,
   3259730800, 3345764771, 3516065817, 3600352804, 4094571909, 275423344,
   430227734, 506948616, 659060556, 883997877, 958139571, 1322822218,
   1537002063, 1747873779, 1955562222, 2024104815, 2227730452, 2361852424,
   2428436474, 2756734187, 3204031479, 3329325298]

/-- The initial chaining value of SHA-256, in decimal: the first word is `0x6a09e667`. -/
def sha256H : List Nat :=
  [1779033703, 3144134277, 1013904242, 2773480762, 1359893119, 2600822924,
   528734635, 1541459225]

/-- Extends the message schedule by `n` words; `w` holds the schedule newest word first. -/
def sha256Sched : Nat → List Nat → List Nat
  | 0, w => w
  | n + 1, w =>
    let w2 := w.getD 1 0
    let w15 := w.getD 14 0
    let s0 := rotr32 w15 7 ^^^ rotr32 w15 18 ^^^ (w15 >>> 3)
    let s1 := rotr32 w2 17 ^^^ rotr32 w2 19 ^^^ (w2 >>> 10)
    sha256Sched n ((w.getD 15 0 + s0 + w.getD 6 0 + s1) % 2 ^ 32 :: w)

/-- One of the 64 rounds of SHA-256 on the working variables `a..h`, with `kw = K[i] + W[i]`. -/
def sha256Round (v : List Nat) (kw : Nat) : List Nat :=
  match v with
  | [a, b, c, d, e, f, g, h] =>
    let s1 := rotr32 e 6 ^^^ rotr32 e 11 ^^^ rotr32 e 25
    let ch := (e &&& f) ^^^ (not32 e &&& g)
    let t1 := (h + s1 + ch + kw) % 2 ^ 32
    let s0 := rotr32 a 2 ^^^ rotr32 a 13 ^^^ rotr32 a 22
    let maj := (a &&& b) ^^^ (a &&& c) ^^^ (b &&& c)
    [add32 t1 (add32 s0 maj), a, b, c, add32 d t1, e, f, g]
  | _ => v

/-- The SHA-256 compression of one 64-byte block. -/
def sha256Block (s : List Nat) (blk : List Byte) : List Nat :=
  let w := (sha256Sched 48 ((pieces 4 16 blk).map beWord).reverse).reverse
  let t := (List.zipWith (fun k x => k + x) sha256K w).foldl sha256Round s
  List.zipWith add32 s t

/-- The digest SHA-256 of a message (FIPS 180-4). -/
def sha256 (msg : List Byte) : List Byte :=
  let padded := msg ++ 0x80 :: List.replicate (padZeros msg.length) 0
    ++ beBytes 8 (8 * msg.length % 2 ^ 64)
  ((pieces 64 (padded.length / 64) padded).foldl sha256Block sha256H).flatMap (beBytes 4)

/-! ## The output file

`write(2)` and the `stdio` calls on the output are answered by an oracle carried with the file:
one answer per call, in order, and every call succeeds once the oracle is exhausted. -/

/-- Size of the copy buffer and of `gz_buf`. -/
def BUFSIZE : Nat := 65536

/-- The answer of the system to one write request. -/
inductive WRes where
  /-- Every byte is taken. -/
  | full
  /-- Only the first `n` bytes are taken, which is no error. -/
  | short (n : Nat)
  /-- The request fails. -/
  | fail
  deriving DecidableEq, Repr

/-- The file behind `ofd`. -/
structure OutFile where
  /-- Bytes the file holds. -/
  data : List Byte
  /-- Answers to the coming write requests. -/
  wres : List WRes
  /-- Whether `close`, or `fclose`, will fail. -/
  closeFails : Bool
  /-- Whether `fdopen`, or the `malloc` before it in `gz_dopen`, will fail. -/
  fdopenFails : Bool
  /-- Whether the descriptor has been closed. -/
  closed : Bool
  deriving DecidableEq, Repr

/-- The call `write(fd, buf, len)`: the number of bytes written, or `-1`. -/
def sysWrite (f : OutFile) (buf : List Byte) : OutFile × Int :=
  match f.wres with
  | [] => ({ f with data := f.data ++ buf }, buf.length)
  | WRes.full :: rest => ({ f with data := f.data ++ buf, wres := rest }, buf.length)
  | WRes.short n :: rest =>
    ({ f with data := f.data ++ buf.take n, wres := rest }, (buf.take n).length)
  | WRes.fail :: rest => ({ f with wres := rest }, -1)

/-- The call `fwrite(buf, 1, len, f)`: the number of bytes written, short on an error. -/
def fwrite (f : OutFile) (buf : List Byte) : OutFile × Nat :=
  match f.wres with
  | [] => ({ f with data := f.data ++ buf }, buf.length)
  | WRes.full :: rest => ({ f with data := f.data ++ buf, wres := rest }, buf.length)
  | WRes.short n :: rest =>
    ({ f with data := f.data ++ buf.take n, wres := rest }, (buf.take n).length)
  | WRes.fail :: rest => ({ f with wres := rest }, 0)

/-- The calls `close(fd)` and `fclose(f)`: `0`, or `-1` on failure. -/
def sysClose (f : OutFile) : OutFile × Int :=
  ({ f with closed := true }, if f.closeFails then -1 else 0)

/-! ## The sink table `struct ofile` -/

/-- The three function pointers of `struct ofile`, over a sink state `σ`.  A call that never
returns (a compressor that makes no progress) is `none`; `fuel` bounds the iterations of the
loops inside the call.  `file` is the output file the sink owns. -/
structure Ofile (σ : Type) where
  /-- The pointer `of_fdopen`; `none` is the return value `NULL`. -/
  of_fdopen : OutFile → Int → Option σ
  /-- The pointer `of_write`: the new state and the `ssize_t` returned. -/
  of_write : Nat → σ → List Byte → Option (σ × Int)
  /-- The pointer `of_close`: the new state and the `int` returned. -/
  of_close : Nat → σ → Option (σ × Int)
  /-- The file under the sink. -/
  file : σ → OutFile

/-- The function `fd_dopen`. -/
def fd_dopen (fd : OutFile) (_level : Int) : Option OutFile := some fd

/-- The function `fd_write`. -/
def fd_write (_fuel : Nat) (ptr : OutFile) (buf : List Byte) : Option (OutFile × Int) :=
  some (sysWrite ptr buf)

/-- The function `fd_close`. -/
def fd_close (_fuel : Nat) (ptr : OutFile) : Option (OutFile × Int) :=
  some (sysClose ptr)

/-- The table `fd_ofile`. -/
def fd_ofile : Ofile OutFile :=
  { of_fdopen := fd_dopen, of_write := fd_write, of_close := fd_close, file := id }

/-! ## zlib `deflate`

The compressor is a library; it enters as a parameter.  What `deflate` does to the fields of
`z_stream` (`next_in`, `avail_in`, `total_in`, `next_out`, `avail_out`) is the documented
contract of zlib and is embedded in `deflate` below. -/

/-- The flush argument of `deflate`. -/
inductive Flush where
  | Z_NO_FLUSH
  | Z_FINISH
  deriving DecidableEq, Repr

def Z_OK : Int := 0
def Z_STREAM_END : Int := 1
def Z_STREAM_ERROR : Int := -2
def Z_MEM_ERROR : Int := -4
def Z_BUF_ERROR : Int := -5
def Z_VERSION_ERROR : Int := -6
def Z_DEFLATED : Nat := 8
def Z_NO_COMPRESSION : Int := 0
def Z_BEST_SPEED : Int := 1
def Z_BEST_COMPRESSION : Int := 9
def Z_DEFAULT_COMPRESSION : Int := -1

/-- What one call of the compression primitive does. -/
structure DeflateOut (κ : Type) where
  /-- The new internal state. -/
  state : κ
  /-- How many of the available input bytes it consumed. -/
  consumed : Nat
  /-- The compressed bytes it stored. -/
  produced : List Byte
  /-- The return code. -/
  rc : Int

/-- A raw DEFLATE compressor with internal state `κ`. -/
structure Deflater (κ : Type) where
  /-- The call `deflateInit2(strm, level, Z_DEFLATED, -MAX_WBITS, GZ_MEM_LEVEL, 0)`. -/
  init : Int → Int × κ
  /-- One call of the primitive on the available input, the free output space and the flush
  argument. -/
  run : κ → List Byte → Nat → Flush → DeflateOut κ
  /-- The call `deflateEnd`. -/
  fin : κ → Int

/-- The structure `struct gz_stream`.  The fields `next_out` and `avail_out` move together, so
`gz_buf` holds the bytes between the start of the buffer and `next_out`, and `avail_out` is the
rest of the buffer. -/
structure GzStream (κ : Type) where
  /-- The stream `gz_f`. -/
  gz_f : OutFile
  /-- The input bytes at `next_in`; `avail_in` is their number. -/
  next_in : List Byte
  /-- The field `total_in`, an `unsigned long`. -/
  total_in : Nat
  /-- The filled part of `gz_buf`. -/
  gz_buf : List Byte
  /-- The field `gz_crc`. -/
  gz_crc : Nat
  /-- The internal state of the compressor. -/
  zstate : κ
  /-- Ghost: every byte the compressor has stored so far, in order. -/
  emitted : List Byte
  deriving DecidableEq

/-- The field `avail_out`. -/
def GzStream.avail_out {κ : Type} (gz : GzStream κ) : Nat := BUFSIZE - gz.gz_buf.length

/-- The field `avail_in`. -/
def GzStream.avail_in {κ : Type} (gz : GzStream κ) : Nat := gz.next_in.length

/-- The call `deflate(&gz->gz_stream, flush)`: the primitive consumes no more than `avail_in`
bytes and stores no more than `avail_out` bytes, and the counters follow. -/
def deflate {κ : Type} (D : Deflater κ) (gz : GzStream κ) (flush : Flush) : GzStream κ × Int :=
  let r := D.run gz.zstate gz.next_in gz.avail_out flush
  let p := r.produced.take gz.avail_out
  ({ gz with
      next_in := gz.next_in.drop r.consumed
      total_in := (gz.total_in + (gz.next_in.take r.consumed).length) % 2 ^ 64
      gz_buf := gz.gz_buf ++ p
      zstate := r.state
      emitted := gz.emitted ++ p }, r.rc)

/-- The ten bytes `hdr` of `gz_dopen`. -/
def gzHdr : List Byte := [0x1f, 0x8b, Z_DEFLATED, 0, 0, 0, 0, 0, 0, 0x03]

/-- The function `gz_dopen`; `none` is `NULL`.  A return code of `deflateInit2` outside the
four in the `switch` reaches `abort()`, which ends the process and also yields no stream. -/
def gz_dopen {κ : Type} (D : Deflater κ) (fd : OutFile) (level : Int) : Option (GzStream κ) :=
  if fd.fdopenFails then none
  else
    let r := D.init level
    if r.1 = Z_OK then
      let w := fwrite fd gzHdr
      if w.2 < gzHdr.length then none
      else some
        { gz_f := w.1, next_in := [], total_in := 0, gz_buf := [], gz_crc := crc32 0 [],
          zstate := r.2, emitted := [] }
    else none

/-- The loop `while (gz->gz_stream.avail_in > 0)` of `gz_write`; the result is `false` when the
function returns `-1` from inside the loop. -/
def gz_write_loop {κ : Type} (D : Deflater κ) : Nat → GzStream κ → Option (GzStream κ × Bool)
  | 0, _ => none
  | fuel + 1, gz =>
    if gz.avail_in > 0 then
      let flushed : GzStream κ × Bool :=
        if gz.avail_out = 0 then
          let w := fwrite gz.gz_f gz.gz_buf
          if w.2 ≠ BUFSIZE then ({ gz with gz_f := w.1 }, false)
          else ({ gz with gz_f := w.1, gz_buf := [] }, true)
        else (gz, true)
      if flushed.2 then
        let d := deflate D flushed.1 Flush.Z_NO_FLUSH
        if d.2 ≠ Z_OK then some (d.1, false)
        else gz_write_loop D fuel d.1
      else some (flushed.1, false)
    else some (gz, true)

/-- The function `gz_write`. -/
def gz_write {κ : Type} (D : Deflater κ) (fuel : Nat) (gz : GzStream κ) (buf : List Byte) :
    Option (GzStream κ × Int) :=
  match gz_write_loop D fuel { gz with next_in := buf } with
  | none => none
  | some (gz1, false) => some (gz1, -1)
  | some (gz1, true) => some ({ gz1 with gz_crc := crc32 gz1.gz_crc buf }, buf.length)

/-- The loop `for (;;)` of `gz_close`, entered with the flag `done`; the result is `false` when
the function returns `-1` from inside the loop. -/
def gz_close_loop {κ : Type} (D : Deflater κ) :
    Nat → GzStream κ → Bool → Option (GzStream κ × Bool)
  | 0, _, _ => none
  | fuel + 1, gz, done =>
    let len := BUFSIZE - gz.avail_out
    let flushed : GzStream κ × Bool :=
      if len > 0 then
        let w := fwrite gz.gz_f (gz.gz_buf.take len)
        if w.2 ≠ len then ({ gz with gz_f := w.1 }, false)
        else ({ gz with gz_f := w.1, gz_buf := [] }, true)
      else (gz, true)
    if flushed.2 then
      if done then some (flushed.1, true)
      else
        let d := deflate D flushed.1 Flush.Z_FINISH
        if d.2 = Z_OK then gz_close_loop D fuel d.1 false
        else if d.2 = Z_STREAM_END then gz_close_loop D fuel d.1 true
        else some (d.1, false)
    else some (flushed.1, false)

/-- The function `gz_close`. -/
def gz_close {κ : Type} (D : Deflater κ) (fuel : Nat) (gz : GzStream κ) :
    Option (GzStream κ × Int) :=
  match gz_close_loop D fuel gz false with
  | none => none
  | some (gz1, false) => some (gz1, -1)
  | some (gz1, true) =>
    let w1 := fwrite gz1.gz_f (le32 (u32 gz1.gz_crc))
    if w1.2 ≠ 4 then some ({ gz1 with gz_f := w1.1 }, -1)
    else
      let w2 := fwrite w1.1 (le32 (u32 gz1.total_in))
      if w2.2 ≠ 4 then some ({ gz1 with gz_f := w2.1 }, -1)
      else if D.fin gz1.zstate ≠ Z_OK then some ({ gz1 with gz_f := w2.1 }, -1)
      else
        let c := sysClose w2.1
        if c.2 ≠ 0 then some ({ gz1 with gz_f := c.1 }, -1)
        else some ({ gz1 with gz_f := c.1 }, 0)

/-- The calls `gz_write` on the chunks in order, as the copy loop makes them; the result is
`false` when one of them returned `-1`, after which no further call is made. -/
def gz_writes {κ : Type} (D : Deflater κ) (fuel : Nat) :
    GzStream κ → List (List Byte) → Option (GzStream κ × Bool)
  | gz, [] => some (gz, true)
  | gz, c :: cs =>
    match gz_write D fuel gz c with
    | none => none
    | some (gz1, ret) => if ret = -1 then some (gz1, false) else gz_writes D fuel gz1 cs

/-- A whole session on the gzip sink: `gz_dopen`, `gz_write` on each chunk, `gz_close`.  It is
the final stream when every call succeeded, and `none` otherwise. -/
def gzRun {κ : Type} (D : Deflater κ) (fuel : Nat) (fd : OutFile) (level : Int)
    (chunks : List (List Byte)) : Option (GzStream κ) :=
  match gz_dopen D fd level with
  | none => none
  | some gz0 =>
    match gz_writes D fuel gz0 chunks with
    | some (gz1, true) =>
      match gz_close D fuel gz1 with
      | some (gz2, ret) => if ret = 0 then some gz2 else none
      | none => none
    | _ => none

/-! ## A compressor of stored blocks

The simplest compressor that meets the `deflate` interface: it emits the input as stored
blocks (RFC 1951, section 3.2.4) and ends the stream with an empty final block. -/

/-- The internal state of the stored-block compressor. -/
structure Stored where
  /-- Compressed bytes not yet handed out. -/
  pending : List Byte
  /-- Whether the final block has been emitted. -/
  finished : Bool
  deriving DecidableEq, Repr

/-- One stored block: the header byte with `BFINAL`, then `LEN` and its complement `NLEN`, then
the data. -/
def storedBlock (final : Bool) (data : List Byte) : List Byte :=
  [if final then 1 else 0, data.length % 256, data.length / 256 % 256,
   (65535 - data.length) % 256, (65535 - data.length) / 256 % 256] ++ data

/-- One call of the stored-block compressor. -/
def storedRun (k : Stored) (inp : List Byte) (space : Nat) (flush : Flush) :
    DeflateOut Stored :=
  if k.finished then
    { state := { k with pending := k.pending.drop space }, consumed := 0,
      produced := k.pending.take space,
      rc := if (k.pending.drop space).isEmpty then Z_STREAM_END else Z_OK }
  else
    let chunk := inp.take 65535
    let blk := if chunk.isEmpty then [] else storedBlock false chunk
    let fin := decide (flush = Flush.Z_FINISH) && decide (inp.length ≤ 65535)
    let all := k.pending ++ blk ++ (if fin then storedBlock true [] else [])
    { state := { pending := all.drop space, finished := fin }, consumed := chunk.length,
      produced := all.take space,
      rc := if fin && (all.drop space).isEmpty then Z_STREAM_END
            else if chunk.isEmpty && (all.take space).isEmpty then Z_BUF_ERROR else Z_OK }

/-- The stored-block compressor; it accepts the levels that `deflateInit2` accepts. -/
def storedDeflater : Deflater Stored :=
  { init := fun level =>
      (if -1 ≤ level ∧ level ≤ 9 then Z_OK else Z_STREAM_ERROR,
       { pending := [], finished := false }),
    run := storedRun,
    fin := fun k => if k.finished then Z_OK else -3 }

/-- The table `gz_ofile`. -/
def gz_ofile {κ : Type} (D : Deflater κ) : Ofile (GzStream κ) :=
  { of_fdopen := gz_dopen D, of_write := gz_write D, of_close := gz_close D,
    file := fun gz => gz.gz_f }

/-! ## The input file and its writer

Another process appends to the input while the rotator runs.  Each system call on `ifd`
consumes one `Ev`: the bytes that writer appends just before the call, and whether the call
fails.  The writer follows the `flock` convention, so nothing arrives while the rotator holds
the exclusive lock.  Once the script is exhausted the writer is silent and no call fails. -/

/-- The input file together with the state of the descriptor `ifd`. -/
structure InFile where
  /-- Contents of the file. -/
  data : List Byte
  /-- Offset of `ifd`. -/
  pos : Nat
  /-- Whether the rotator holds `LOCK_EX`. -/
  locked : Bool
  /-- Ghost: every byte the writer has appended since the file was opened, in order. -/
  arrived : List Byte
  deriving DecidableEq, Repr

/-- What surrounds one system call on `ifd`. -/
structure Ev where
  /-- Bytes the writer appends before the call. -/
  app : List Byte
  /-- Whether the call returns `-1`. -/
  fail : Bool
  deriving DecidableEq, Repr

/-- The next entry of the script and the rest of it. -/
def nextEv (evs : List Ev) : Ev × List Ev :=
  match evs with
  | [] => ({ app := [], fail := false }, [])
  | ev :: rest => (ev, rest)

/-- The writer appends, unless the lock keeps it out. -/
def InFile.arrive (f : InFile) (ev : Ev) : InFile :=
  if f.locked then f else { f with data := f.data ++ ev.app, arrived := f.arrived ++ ev.app }

/-- The call `read(ifd, buf, sizeof(buf))`: `none` is `-1`, otherwise the bytes read. -/
def sysRead (f : InFile) (ev : Ev) : InFile × Option (List Byte) :=
  let g := f.arrive ev
  if ev.fail then (g, none)
  else
    let chunk := (g.data.drop g.pos).take BUFSIZE
    ({ g with pos := g.pos + chunk.length }, some chunk)

/-- The call `flock(ifd, LOCK_EX)`: whether it succeeded. -/
def sysLock (f : InFile) (ev : Ev) : InFile × Bool :=
  let g := f.arrive ev
  if ev.fail then (g, false) else ({ g with locked := true }, true)

/-- The call `flock(ifd, LOCK_UN)`: whether it succeeded. -/
def sysUnlock (f : InFile) (ev : Ev) : InFile × Bool :=
  let g := f.arrive ev
  if ev.fail then (g, false) else ({ g with locked := false }, true)

/-- The call `ftruncate(ifd, 0)`: whether it succeeded. -/
def sysTruncate (f : InFile) (ev : Ev) : InFile × Bool :=
  let g := f.arrive ev
  if ev.fail then (g, false) else ({ g with data := [] }, true)

/-! ## Digest contexts

The contexts `MD5_CTX` and `SHA256_CTX` are the bytes absorbed so far; none of the calls
fails (in OpenSSL they all return 1). -/

def MD5_Init : List Byte := []
def MD5_Update (c buf : List Byte) : List Byte := c ++ buf
def MD5_Final (c : List Byte) : List Byte := md5 c
def SHA256_Init : List Byte := []
def SHA256_Update (c buf : List Byte) : List Byte := c ++ buf
def SHA256_Final (c : List Byte) : List Byte := sha256 c

/-! ## `main` of bunyan-rotate -/

/-- One system or library call of `main`, as it happened. -/
inductive Event where
  /-- The call `open(ifile, trunc)`. -/
  | openIn (ok : Bool)
  /-- The call `fstat(ifd, &st)`. -/
  | fstat (ok : Bool)
  /-- The call `open(ofile, O_WRONLY|O_CREAT|O_TRUNC, 0666)`. -/
  | openOut (ok : Bool)
  /-- The call `ofop->of_fdopen(ofd, level)`. -/
  | fdopen (ok : Bool)
  /-- A `read` that returned `chunk`, and whether the lock was held. -/
  | read (locked : Bool) (chunk : List Byte)
  /-- A `read` that returned `-1`. -/
  | readFail
  /-- The call `flock(ifd, LOCK_EX)`. -/
  | lock (ok : Bool)
  /-- The call `flock(ifd, LOCK_UN)`. -/
  | unlock (ok : Bool)
  /-- The call `ofop->of_write(of, buf, len)` and its return value. -/
  | write (chunk : List Byte) (ret : Int)
  /-- The call `ofop->of_close(of)` and its return value. -/
  | close (ret : Int)
  /-- The call `ftruncate(ifd, 0)`: whether the lock was held, the contents it found. -/
  | truncate (locked : Bool) (removed : List Byte) (ok : Bool)
  /-- The call `asprintf(&mfile, "%s.meta", ofile)`. -/
  | metaName (ok : Bool)
  /-- The call `fopen(mfile, "w")`. -/
  | metaOpen (ok : Bool)
  /-- One `fprintf(mf, ...)`. -/
  | metaPrint (ok : Bool)
  /-- The call `fclose(mf)`. -/
  | metaClose (ok : Bool)
  deriving DecidableEq, Repr

/-- The variables of `main` that the options set (`ofop` is passed beside it). -/
structure Config where
  /-- The option `-s`; `0` when it is not given. -/
  size : Int
  /-- Whether `trunc == O_RDWR`; the option `-T` clears it. -/
  trunc : Bool
  /-- The compression level. -/
  level : Int
  /-- The option `-M`. -/
  meta : Bool
  /-- The input path `argv[0]`. -/
  ifile : List Char
  /-- The output path, after `strftime` when formatting is on. -/
  ofile : List Char
  deriving DecidableEq, Repr

/-- The system that `main` runs on. -/
structure Env where
  /-- Contents of the input file when it is opened. -/
  input : List Byte
  /-- Whether `open(ifile, trunc)` fails. -/
  openInFails : Bool
  /-- Whether `fstat` fails. -/
  fstatFails : Bool
  /-- Whether `open(ofile, ...)` fails. -/
  openOutFails : Bool
  /-- The output file and the answers to the calls on it. -/
  out : OutFile
  /-- The script for the calls on `ifd` in the copy loop. -/
  evs : List Ev
  /-- Whether `asprintf` fails. -/
  asprintfFails : Bool
  /-- Whether `fopen(mfile, "w")` fails. -/
  metaOpenFails : Bool
  /-- Answers to the `stdio` calls on `mf`, in order: `true` is a failing call. -/
  metaFails : List Bool
  deriving DecidableEq, Repr

/-- The local variables of `main` inside the copy loop, with the trace so far. -/
structure Loop (σ : Type) where
  /-- The input file and `ifd`. -/
  input : InFile
  /-- The rest of the script. -/
  evs : List Ev
  /-- The sink `of`. -/
  of : σ
  /-- The counter `iflen`. -/
  iflen : Nat
  /-- The context `md5c`. -/
  md5c : List Byte
  /-- The context `sha256c`. -/
  sha256c : List Byte
  /-- Ghost: the calls made so far. -/
  trace : List Event

/-- How one pass through a part of the loop body ends. -/
inductive Next where
  /-- The process exits with this status. -/
  | exit (code : Nat)
  /-- The statement `break`. -/
  | done
  /-- Control goes on with `len` bytes in `buf`. -/
  | more (chunk : List Byte)
  deriving DecidableEq, Repr

/-- Lines 219 to 229: the digests are updated and the chunk goes to the sink. -/
def feed {σ : Type} (ofop : Ofile σ) (cfg : Config) (sfuel : Nat) (s : Loop σ)
    (chunk : List Byte) : Option (Loop σ × Option Nat) :=
  let s1 : Loop σ :=
    { s with iflen := if cfg.meta then s.iflen + chunk.length else s.iflen,
             md5c := if cfg.meta then MD5_Update s.md5c chunk else s.md5c,
             sha256c := if cfg.meta then SHA256_Update s.sha256c chunk else s.sha256c }
  match ofop.of_write sfuel s1.of chunk with
  | none => none
  | some (of2, ret) =>
    some ({ s1 with of := of2, trace := s1.trace ++ [Event.write chunk ret] },
      if ret = -1 then some 1 else none)

/-- Lines 204 to 216, after the second `read` returned `chunk`: on a zero length the sink is
closed and the input truncated, then the lock is released. -/
def settle {σ : Type} (ofop : Ofile σ) (cfg : Config) (sfuel : Nat) (s : Loop σ)
    (chunk : List Byte) : Option (Loop σ × Next) :=
  let closed : Option (Loop σ × Bool) :=
    if chunk.length = 0 then
      match ofop.of_close sfuel s.of with
      | none => none
      | some (of2, ret) =>
        let s1 := { s with of := of2, trace := s.trace ++ [Event.close ret] }
        if ret = -1 then some (s1, false)
        else if cfg.trunc then
          let e := nextEv s1.evs
          let t := sysTruncate s1.input e.1
          some ({ s1 with input := t.1, evs := e.2,
                          trace := s1.trace ++
                            [Event.truncate s1.input.locked (s1.input.arrive e.1).data t.2] }, t.2)
        else some (s1, true)
    else some (s, true)
  match closed with
  | none => none
  | some (s2, false) => some (s2, Next.exit 1)
  | some (s2, true) =>
    let e := nextEv s2.evs
    let u := sysUnlock s2.input e.1
    let s3 := { s2 with input := u.1, evs := e.2, trace := s2.trace ++ [Event.unlock u.2] }
    if u.2 then some (s3, if chunk.length = 0 then Next.done else Next.more chunk)
    else some (s3, Next.exit 1)

/-- Lines 196 to 217, after the first `read` returned zero: lock, read again, settle. -/
def confirm {σ : Type} (ofop : Ofile σ) (cfg : Config) (sfuel : Nat) (s : Loop σ) :
    Option (Loop σ × Next) :=
  let e := nextEv s.evs
  let l := sysLock s.input e.1
  let s1 := { s with input := l.1, evs := e.2, trace := s.trace ++ [Event.lock l.2] }
  if l.2 then
    let e2 := nextEv s1.evs
    let r := sysRead s1.input e2.1
    match r.2 with
    | none =>
      some ({ s1 with input := r.1, evs := e2.2, trace := s1.trace ++ [Event.readFail] },
        Next.exit 1)
    | some chunk =>
      settle ofop cfg sfuel
        { s1 with input := r.1, evs := e2.2,
                  trace := s1.trace ++ [Event.read s1.input.locked chunk] } chunk
  else some (s1, Next.exit 1)

/-- How one iteration of the copy loop ends. -/
inductive Flow where
  /-- The process exits with this status. -/
  | exit (code : Nat)
  /-- The statement `break`. -/
  | brk
  /-- The next iteration starts. -/
  | cont
  deriving DecidableEq, Repr

/-- One iteration of the loop `for (;;)` of `main`, lines 193 to 229. -/
def body {σ : Type} (ofop : Ofile σ) (cfg : Config) (sfuel : Nat) (s : Loop σ) :
    Option (Loop σ × Flow) :=
  let e := nextEv s.evs
  let r := sysRead s.input e.1
  match r.2 with
  | none =>
    some ({ s with input := r.1, evs := e.2, trace := s.trace ++ [Event.readFail] }, Flow.exit 1)
  | some chunk =>
    let s1 := { s with input := r.1, evs := e.2,
                       trace := s.trace ++ [Event.read s.input.locked chunk] }
    let got : Option (Loop σ × Next) :=
      if chunk.length = 0 then confirm ofop cfg sfuel s1 else some (s1, Next.more chunk)
    match got with
    | none => none
    | some (s2, Next.exit code) => some (s2, Flow.exit code)
    | some (s2, Next.done) => some (s2, Flow.brk)
    | some (s2, Next.more c) =>
      match feed ofop cfg sfuel s2 c with
      | none => none
      | some (s3, some code) => some (s3, Flow.exit code)
      | some (s3, none) => some (s3, Flow.cont)

/-- The loop `for (;;)` of `main`, lines 192 to 230: the state when the loop is left and the
exit status if the process exited inside it.  `fuel` bounds the iterations. -/
def copyLoop {σ : Type} (ofop : Ofile σ) (cfg : Config) (sfuel : Nat) :
    Nat → Loop σ → Option (Loop σ × Option Nat)
  | 0, _ => none
  | fuel + 1, s =>
    match body ofop cfg sfuel s with
    | none => none
    | some (s1, Flow.exit code) => some (s1, some code)
    | some (s1, Flow.brk) => some (s1, none)
    | some (s1, Flow.cont) => copyLoop ofop cfg sfuel fuel s1

/-- The stream `mf` with the trace. -/
structure Mf where
  /-- Characters the file holds. -/
  data : List Char
  /-- Answers to the coming calls. -/
  fails : List Bool
  /-- Ghost: the calls made so far. -/
  trace : List Event

/-- One call `fprintf(mf, ...)` that formats to `s`; `main` ignores what it returns. -/
def fprintf (mf : Mf) (s : List Char) : Mf :=
  match mf.fails with
  | true :: rest => { mf with fails := rest, trace := mf.trace ++ [Event.metaPrint false] }
  | false :: rest =>
    { data := mf.data ++ s, fails := rest, trace := mf.trace ++ [Event.metaPrint true] }
  | [] => { mf with data := mf.data ++ s, trace := mf.trace ++ [Event.metaPrint true] }

/-- The call `fclose(mf)`; `main` ignores what it returns. -/
def fclose (mf : Mf) : Mf :=
  match mf.fails with
  | true :: rest => { mf with fails := rest, trace := mf.trace ++ [Event.metaClose false] }
  | _ :: rest => { mf with fails := rest, trace := mf.trace ++ [Event.metaClose true] }
  | [] => { mf with trace := mf.trace ++ [Event.metaClose true] }

/-- Lines 253 to 265: the four lines of the metadata file. -/
def writeMeta (mf : Mf) (ifile : List Char) (iflen : Nat) (md5sum sha256sum : List Byte) : Mf :=
  let m1 := fprintf mf ("ifile=".toList ++ ifile ++ "\nlen=".toList ++ fmtLlu iflen ++ "\n".toList)
  let m2 := fprintf m1 "md5=".toList
  let m3 := md5sum.foldl (fun m b => fprintf m (fmt02x b)) m2
  let m4 := fprintf m3 "\n".toList
  let m5 := fprintf m4 "sha256=".toList
  let m6 := sha256sum.foldl (fun m b => fprintf m (fmt02x b)) m5
  let m7 := fprintf m6 "\n".toList
  fclose m7

/-- What a run of the rotator leaves behind. -/
structure Result (σ : Type) where
  /-- The exit status. -/
  exit : Nat
  /-- Every call made, in order. -/
  trace : List Event
  /-- The input file when the process ends; `none` if it was never opened. -/
  input : Option InFile
  /-- The sink; `none` if it was never opened. -/
  sink : Option σ
  /-- Name and contents of the metadata file; `none` if it was never created. -/
  metaFile : Option (List Char × List Char)
  deriving DecidableEq

/-- Lines 160 to 190 of `main`, with the options already in `cfg` and `ofop`: the input is
opened, the size gate is applied, the output and the sink are opened.  Either the process has
ended (left), or the copy loop is entered with these variables (right). -/
def startup {σ : Type} (ofop : Ofile σ) (cfg : Config) (env : Env) : Result σ ⊕ Loop σ :=
  if env.openInFails then
    Sum.inl { exit := 1, trace := [Event.openIn false], input := none, sink := none,
              metaFile := none }
  else
    let ifd : InFile := { data := env.input, pos := 0, locked := false, arrived := [] }
    let t1 := [Event.openIn true]
    let gate : List Event × Option Nat :=
      if cfg.size > 0 then
        if env.fstatFails then (t1 ++ [Event.fstat false], some 1)
        else if (ifd.data.length : Int) < cfg.size then (t1 ++ [Event.fstat true], some 0)
        else (t1 ++ [Event.fstat true], none)
      else (t1, none)
    match gate.2 with
    | some code =>
      Sum.inl { exit := code, trace := gate.1, input := some ifd, sink := none,
                metaFile := none }
    | none =>
      if env.openOutFails then
        Sum.inl { exit := 1, trace := gate.1 ++ [Event.openOut false], input := some ifd,
                  sink := none, metaFile := none }
      else
        let t2 := gate.1 ++ [Event.openOut true]
        match ofop.of_fdopen { env.out with data := [], closed := false } cfg.level with
        | none =>
          Sum.inl { exit := 1, trace := t2 ++ [Event.fdopen false], input := some ifd,
                    sink := none, metaFile := none }
        | some sk =>
          Sum.inr { input := ifd, evs := env.evs, of := sk, iflen := 0, md5c := MD5_Init,
                    sha256c := SHA256_Init, trace := t2 ++ [Event.fdopen true] }

/-- Lines 240 to 265 of `main` once `fopen` has succeeded: the digests are finalised and the
metadata file is written. -/
def metaBlock {σ : Type} (cfg : Config) (env : Env) (s : Loop σ) : Mf :=
  writeMeta
    { data := [], fails := env.metaFails,
      trace := s.trace ++ [Event.metaName true, Event.metaOpen true] }
    cfg.ifile s.iflen (MD5_Final s.md5c) (SHA256_Final s.sha256c)

/-- Lines 232 to 269 of `main`: what follows the `break`. -/
def finish {σ : Type} (cfg : Config) (env : Env) (s : Loop σ) : Result σ :=
  if cfg.meta then
    if env.asprintfFails then
      { exit := 1, trace := s.trace ++ [Event.metaName false], input := some s.input,
        sink := some s.of, metaFile := none }
    else if env.metaOpenFails then
      { exit := 1, trace := s.trace ++ [Event.metaName true, Event.metaOpen false],
        input := some s.input, sink := some s.of, metaFile := none }
    else
      let mf := metaBlock cfg env s
      { exit := 0, trace := mf.trace, input := some s.input, sink := some s.of,
        metaFile := some (cfg.ofile ++ ".meta".toList, mf.data) }
  else
    { exit := 0, trace := s.trace, input := some s.input, sink := some s.of, metaFile := none }

/-- The function `main` from line 160 on.  `fuel` bounds the iterations of the copy loop and
`sfuel` those of the loops in the sink; `none` is a run that has not ended within them. -/
def main {σ : Type} (ofop : Ofile σ) (cfg : Config) (env : Env) (fuel sfuel : Nat) :
    Option (Result σ) :=
  match startup ofop cfg env with
  | Sum.inl r => some r
  | Sum.inr s0 =>
    match copyLoop ofop cfg sfuel fuel s0 with
    | none => none
    | some (s, some code) =>
      some { exit := code, trace := s.trace, input := some s.input, sink := some s.of,
             metaFile := none }
    | some (s, none) => some (finish cfg env s)

/-! ## Reading a trace -/

/-- The chunk of a successful `read`. -/
def Event.readChunk : Event → Option (List Byte)
  | Event.read _ c => some c
  | _ => none

/-- The chunk handed to `of_write`. -/
def Event.writeChunk : Event → Option (List Byte)
  | Event.write c _ => some c
  | _ => none

/-- Whether the event is a call of `ftruncate`. -/
def Event.isTruncate : Event → Bool
  | Event.truncate _ _ _ => true
  | _ => false

/-- The chunks that the successful reads returned, in order. -/
def readsOf (tr : List Event) : List (List Byte) := tr.filterMap Event.readChunk

/-- The chunks handed to the sink, in order. -/
def writesOf (tr : List Event) : List (List Byte) := tr.filterMap Event.writeChunk

/-- The bytes handed to the sink, in order. -/
def handed (tr : List Event) : List Byte := (writesOf tr).flatten

/-- Whether the event is a `stdio` call on the metadata stream. -/
def Event.isMetaIO : Event → Bool
  | Event.metaPrint _ => true
  | Event.metaClose _ => true
  | _ => false

/-- Whether the event is one of the calls that follow the copy loop on a successful run: the
name and the opening of the metadata file, and the `stdio` calls on it. -/
def Event.afterLoop : Event → Bool
  | Event.metaName ok => ok
  | Event.metaOpen ok => ok
  | Event.metaPrint _ => true
  | Event.metaClose _ => true
  | _ => false

/-- The calls before the copy loop on a run that reaches it. -/
def prelude (cfg : Config) : List Event :=
  [Event.openIn true] ++ (if cfg.size > 0 then [Event.fstat true] else []) ++
    [Event.openOut true, Event.fdopen true]

/-- Whether the call failed, counting every call that has a way to report failure. -/
def Event.failed : Event → Bool
  | Event.openIn ok => !ok
  | Event.fstat ok => !ok
  | Event.openOut ok => !ok
  | Event.fdopen ok => !ok
  | Event.read _ _ => false
  | Event.readFail => true
  | Event.lock ok => !ok
  | Event.unlock ok => !ok
  | Event.write _ ret => decide (ret = -1)
  | Event.close ret => decide (ret = -1)
  | Event.truncate _ _ ok => !ok
  | Event.metaName ok => !ok
  | Event.metaOpen ok => !ok
  | Event.metaPrint ok => !ok
  | Event.metaClose ok => !ok

/-- Whether the call failed, counting only the calls whose result `main` looks at: the
results of `fprintf` and `fclose` on the metadata stream are left out. -/
def Event.failedChecked : Event → Bool
  | Event.metaPrint _ => false
  | Event.metaClose _ => false
  | e => e.failed

/-- The chunk and the return value of a call of `of_write`. -/
def Event.writeCall : Event → Option (List Byte × Int)
  | Event.write c ret => some (c, ret)
  | _ => none

/-- The calls of `of_write` with their return values, in order. -/
def writeLog (tr : List Event) : List (List Byte × Int) := tr.filterMap Event.writeCall

/-- The bytes that the calls of `write(2)` in the log took: of each chunk, as many bytes as the
call returned. -/
def accepted (log : List (List Byte × Int)) : List Byte :=
  log.flatMap (fun p => p.1.take p.2.toNat)

/-! ## The invariant of the copy loop -/

/-- What holds at the head of every iteration of the copy loop, for an input file that held
`init` when it was opened: the lock is free, the file is `init` followed by what the writer
appended, the bytes before the offset are exactly the bytes handed to the sink, every
non-empty chunk read was handed on once, nothing was truncated, no call failed, and the
digests absorbed the bytes handed on. -/
structure LoopInv {σ : Type} (cfg : Config) (init : List Byte) (s : Loop σ) : Prop where
  unlocked : s.input.locked = false
  data_eq : s.input.data = init ++ s.input.arrived
  pos_le : s.input.pos ≤ s.input.data.length
  handed_eq : handed s.trace = s.input.data.take s.input.pos
  writes_eq : writesOf s.trace = (readsOf s.trace).filter (fun c => !c.isEmpty)
  no_trunc : ∀ e ∈ s.trace, e.isTruncate = false
  no_fail : ∀ e ∈ s.trace, e.failed = false
  digests : cfg.meta = true →
    s.iflen = (handed s.trace).length ∧ s.md5c = handed s.trace ∧ s.sha256c = handed s.trace

/-- The calls between the first zero-length `read` and the `break`: lock, second `read`,
close of the sink, truncation when it is enabled, unlock. -/
def lastPass (cfg : Config) (removed : List Byte) (ret : Int) : List Event :=
  [Event.read false [], Event.lock true, Event.read true [], Event.close ret] ++
    (if cfg.trunc then [Event.truncate true removed true] else []) ++ [Event.unlock true]

/-- What holds when the copy loop is left through `break`. -/
structure LoopPost {σ : Type} (cfg : Config) (init : List Byte) (s : Loop σ) : Prop where
  shape : ∃ pre ret, s.trace = pre ++ lastPass cfg (handed pre) ret ∧ ret ≠ -1 ∧
    (∀ e ∈ pre, e.isTruncate = false) ∧
    writesOf pre = (readsOf pre).filter (fun c => !c.isEmpty)
  no_fail : ∀ e ∈ s.trace, e.failed = false
  all_handed : handed s.trace = init ++ s.input.arrived
  data_after : s.input.data = if cfg.trunc then [] else init ++ s.input.arrived
  unlocked : s.input.locked = false
  digests : cfg.meta = true →
    s.iflen = (handed s.trace).length ∧ s.md5c = handed s.trace ∧ s.sha256c = handed s.trace

/-- The input file as the loop sees it: lock state `lk`, contents `init` followed by the
arrivals, and the bytes before the offset are `H`. -/
structure FInv (init H : List Byte) (lk : Bool) (f : InFile) : Prop where
  locked_eq : f.locked = lk
  data_eq : f.data = init ++ f.arrived
  pos_le : f.pos ≤ f.data.length
  take_eq : f.data.take f.pos = H

/-- The calls made by `startup`, whichever way it ended. -/
def startupTrace {σ : Type} (x : Result σ ⊕ Loop σ) : List Event :=
  match x with
  | Sum.inl r => r.trace
  | Sum.inr s => s.trace

/-- The result of a run that the size gate stopped: status 0 after `open` and `fstat` on the
input, which is as it was, with no sink and no metadata file. -/
def declined (σ : Type) (env : Env) : Result σ :=
  { exit := 0, trace := [Event.openIn true, Event.fstat true],
    input := some { data := env.input, pos := 0, locked := false, arrived := [] },
    sink := none, metaFile := none }

/-! ## Example runs -/

/-- An empty output file on which every call succeeds. -/
def plainOut : OutFile :=
  { data := [], wres := [], closeFails := false, fdopenFails := false, closed := false }

/-- Plain output, truncation on, no metadata. -/
def raceCfg : Config :=
  { size := 0, trunc := true, level := 0, meta := false, ifile := "in.log".toList,
    ofile := "out".toList }

/-- The input holds `abc`; the writer appends `de` after the first zero-length `read` and before
the lock is taken. -/
def raceEnv : Env :=
  { input := [97, 98, 99], openInFails := false, fstatFails := false, openOutFails := false,
    out := plainOut,
    evs := [{ app := [], fail := false }, { app := [], fail := false },
            { app := [100, 101], fail := false }],
    asprintfFails := false, metaOpenFails := false, metaFails := [] }

/-- The run of the rotator on `raceEnv`. -/
def raceRun : Result OutFile :=
  { exit := 0,
    trace := [Event.openIn true, Event.openOut true, Event.fdopen true,
      Event.read false [97, 98, 99], Event.write [97, 98, 99] 3,
      Event.read false [], Event.lock true, Event.read true [100, 101], Event.unlock true,
      Event.write [100, 101] 2,
      Event.read false [], Event.lock true, Event.read true [], Event.close 0,
      Event.truncate true [97, 98, 99, 100, 101] true, Event.unlock true],
    input := some { data := [], pos := 5, locked := false, arrived := [100, 101] },
    sink := some { data := [97, 98, 99, 100, 101], wres := [], closeFails := false,
                   fdopenFails := false, closed := true },
    metaFile := none }

/-- As `raceCfg`, with the option `-s 4`. -/
def gateCfg : Config :=
  { size := 4, trunc := true, level := 0, meta := false, ifile := "in.log".toList,
    ofile := "out".toList }

/-- The input holds `abc`; the first `write` on the output takes one byte only. -/
def shortWriteEnv : Env :=
  { input := [97, 98, 99], openInFails := false, fstatFails := false, openOutFails := false,
    out := { data := [], wres := [WRes.short 1], closeFails := false, fdopenFails := false,
             closed := false },
    evs := [], asprintfFails := false, metaOpenFails := false, metaFails := [] }

/-! ## The invariant of the gzip sink -/

/-- What holds of a `gz_stream` between calls, for a file that held `base` when `gz_dopen` got
it and for the bytes `input` submitted so far: file and buffer together are `base`, the header
and everything the compressor stored; the buffer is not overfull; and `total_in` counts the
submitted bytes that are no longer waiting at `next_in`. -/
structure GzInv {κ : Type} (base input : List Byte) (gz : GzStream κ) : Prop where
  file_eq : gz.gz_f.data ++ gz.gz_buf = base ++ gzHdr ++ gz.emitted
  buf_le : gz.gz_buf.length ≤ BUFSIZE
  total_eq : (gz.total_in + gz.next_in.length) % 2 ^ 64 = input.length % 2 ^ 64
  total_lt : gz.total_in < 2 ^ 64

/-- What holds of a `gz_stream` between two calls of the sink: the invariant, no input waiting,
and `gz_crc` is the CRC-32 of the bytes submitted so far. -/
structure GzIdle {κ : Type} (base input : List Byte) (gz : GzStream κ) : Prop where
  inv : GzInv base input gz
  idle : gz.next_in = []
  crc : gz.gz_crc = crc32 0 input

/-- The stream after a session of the stored-block compressor on the chunks `ab` and `c`. -/
def storedSession : GzStream Stored :=
  { gz_f :=
      { data := [31, 139, 8, 0, 0, 0, 0, 0, 0, 3, 0, 2, 0, 253, 255, 97, 98, 0, 1, 0, 254, 255,
                 99, 1, 0, 0, 255, 255, 194, 65, 36, 53, 3, 0, 0, 0],
        wres := [], closeFails := false, fdopenFails := false, closed := true },
    next_in := [], total_in := 3, gz_buf := [], gz_crc := 891568578,
    zstate := { pending := [], finished := true },
    emitted := [0, 2, 0, 253, 255, 97, 98, 0, 1, 0, 254, 255, 99, 1, 0, 0, 255, 255] }

/-- What is left for the copy loop to do: one unit for each entry of the script and for each
byte that the script will still append, and the bytes of the file after the offset. -/
def slackOf (f : InFile) (evs : List Ev) : Nat :=
  (evs.map (fun ev => ev.app.length + 1)).sum + (f.data.length - f.pos)

/-- The measure `slackOf` of the variables of the loop. -/
def Loop.slack {σ : Type} (s : Loop σ) : Nat := slackOf s.input s.evs

/-- A sink whose calls always return when given `sfuel`. -/
def Ofile.Total {σ : Type} (ofop : Ofile σ) (sfuel : Nat) : Prop :=
  (∀ st buf, (ofop.of_write sfuel st buf).isSome = true) ∧
    ∀ st, (ofop.of_close sfuel st).isSome = true

/-! ## `main` of bunyan-unlink -/

namespace Unlink

/-- The fields of `struct stat` that the pruner reads. -/
structure Stat where
  /-- Whether `S_ISREG(st_mode)` holds. -/
  isReg : Bool
  /-- The field `st_atim.tv_sec`. -/
  st_atim : Int
  /-- The field `st_mtim.tv_sec`. -/
  st_mtim : Int
  /-- The field `st_ctim.tv_sec`. -/
  st_ctim : Int
  deriving DecidableEq, Repr

/-- One entry returned by `readdir`, with what the system answers about it. -/
structure Dirent where
  /-- The field `d_name`. -/
  d_name : List Char
  /-- What `stat(d_name, &sb)` stores; `none` when it returns `-1`. -/
  st : Option Stat
  /-- Whether `unlink(d_name)` would return `-1`. -/
  unlinkFails : Bool
  deriving DecidableEq, Repr

/-- The variable `match_fn`.  For `match_format` the result of `strptime` followed by `mktime`
on a file name is the parameter `parse` of the loop: `none` when `strptime` returns `NULL`. -/
inductive MatchFn where
  | match_atime
  | match_mtime
  | match_ctime
  | match_format
  deriving DecidableEq, Repr

/-- What the loop did to an entry. -/
inductive Act where
  /-- The call `unlink(d_name)`. -/
  | unlink (name : List Char)
  /-- The call `printfname(d_name)`. -/
  | print (name : List Char)
  deriving DecidableEq, Repr

/-- The function `match_time`. -/
def match_time (age : Int) (tv_sec : Int) : Int := if tv_sec ≤ age then 1 else 0

/-- The function `match_format`. -/
def match_format (parse : List Char → Option Int) (age : Int) (fname : List Char) : Int :=
  match parse fname with
  | none => 0
  | some fage => if fage = -1 then -1 else if fage ≤ age then 1 else 0

/-- The call `(*match_fn)(match_arg, age, &sb, dp->d_name)`. -/
def applyMatch (fn : MatchFn) (parse : List Char → Option Int) (age : Int) (sb : Stat)
    (fname : List Char) : Int :=
  match fn with
  | MatchFn.match_atime => match_time age sb.st_atim
  | MatchFn.match_mtime => match_time age sb.st_mtim
  | MatchFn.match_ctime => match_time age sb.st_ctim
  | MatchFn.match_format => match_format parse age fname

/-- The variables of `main` that live across iterations of the `readdir` loop. -/
structure Vars where
  /-- The buffer `sb`. -/
  sb : Stat
  /-- The variable `ecode`. -/
  ecode : Nat
  /-- Ghost: the calls of `unlink_fn` so far. -/
  acts : List Act
  deriving DecidableEq, Repr

/-- One iteration of the loop `while ((dp = readdir(dirp)) != NULL)`, lines 152 to 176.
`dry` is the option `-n`.  A failing `stat` leaves `sb` as it was. -/
def visit (fn : MatchFn) (parse : List Char → Option Int) (dry : Bool) (age : Int)
    (v : Vars) (dp : Dirent) : Vars :=
  if dp.d_name.head? = some '.' then v
  else
    let v1 : Vars :=
      match dp.st with
      | none => { v with ecode := 1 }
      | some st => { v with sb := st }
    if !v1.sb.isReg then v1
    else
      let m := applyMatch fn parse age v1.sb dp.d_name
      if m = -1 then { v1 with ecode := 1 }
      else if m ≠ 0 then
        if dry then { v1 with acts := v1.acts ++ [Act.print dp.d_name] }
        else if dp.unlinkFails then
          { v1 with acts := v1.acts ++ [Act.unlink dp.d_name], ecode := 1 }
        else { v1 with acts := v1.acts ++ [Act.unlink dp.d_name] }
      else v1

/-- The whole `readdir` loop over the entries of the directory; `sb0` is what the
uninitialised buffer `sb` holds on entry. -/
def prune (fn : MatchFn) (parse : List Char → Option Int) (dry : Bool) (age : Int)
    (sb0 : Stat) (entries : List Dirent) : Vars :=
  entries.foldl (visit fn parse dry age) { sb := sb0, ecode := 0, acts := [] }

/-- The guard on one entry: the name does not begin with a dot, `stat` succeeded on it and
reported a regular file, and the selected function matched on that entry's own data. -/
def deletionGuard (fn : MatchFn) (parse : List Char → Option Int) (age : Int) (dp : Dirent) : Prop :=
  dp.d_name.head? ≠ some '.' ∧
    ∃ st, dp.st = some st ∧ st.isReg = true ∧ 0 < applyMatch fn parse age st dp.d_name

/-- A regular file last modified at time 0. -/
def oldLog : Dirent :=
  { d_name := "old.log".toList,
    st := some { isReg := true, st_atim := 0, st_mtim := 0, st_ctim := 0 },
    unlinkFails := false }

/-- An entry on which `stat` fails, such as a symbolic link whose target is gone. -/
def ghost : Dirent := { d_name := "ghost".toList, st := none, unlinkFails := false }

end Unlink

end Hindsight

/-! # Theorems -/

namespace Hindsight

/-! ## Traces -/

@[simp] theorem readsOf_append (a b : List Event) : readsOf (a ++ b) = readsOf a ++ readsOf b := by
  simp [readsOf]

@[simp] theorem writesOf_append (a b : List Event) :
    writesOf (a ++ b) = writesOf a ++ writesOf b := by
  simp [writesOf]

@[simp] theorem handed_append (a b : List Event) : handed (a ++ b) = handed a ++ handed b := by
  simp [handed]

/-! ## The parts of the loop body -/

theorem feed_eq {σ : Type} (ofop : Ofile σ) (cfg : Config) (sfuel : Nat) (s s' : Loop σ)
    (chunk : List Byte) (x : Option Nat) (h : feed ofop cfg sfuel s chunk = some (s', x)) :
    ∃ of2 ret, ofop.of_write sfuel s.of chunk = some (of2, ret) ∧
      x = (if ret = -1 then some 1 else none) ∧
      s' = { s with
        iflen := if cfg.meta then s.iflen + chunk.length else s.iflen
        md5c := if cfg.meta then s.md5c ++ chunk else s.md5c
        sha256c := if cfg.meta then s.sha256c ++ chunk else s.sha256c
        of := of2
        trace := s.trace ++ [Event.write chunk ret] } := by
  unfold feed at h
  simp only [] at h
  split at h
  · simp at h
  · rename_i of2 ret heq
    simp only [Option.some.injEq, Prod.mk.injEq] at h
    exact ⟨of2, ret, heq, h.2.symm, by rw [← h.1]; rfl⟩

theorem settle_exit {σ : Type} (ofop : Ofile σ) (cfg : Config) (sfuel : Nat) (s s' : Loop σ)
    (chunk : List Byte) (c : Nat) (h : settle ofop cfg sfuel s chunk = some (s', Next.exit c)) :
    c = 1 := by
  unfold settle at h
  simp only [] at h
  split at h
  · simp at h
  · simp at h; exact h.2.symm
  · split at h
    · split at h <;> simp at h
    · simp at h; exact h.2.symm

theorem settle_more {σ : Type} (ofop : Ofile σ) (cfg : Config) (sfuel : Nat) (s s' : Loop σ)
    (chunk c : List Byte) (h : settle ofop cfg sfuel s chunk = some (s', Next.more c)) :
    c = chunk ∧ chunk ≠ [] ∧ (sysUnlock s.input (nextEv s.evs).1).2 = true ∧
      s' = { s with input := (sysUnlock s.input (nextEv s.evs).1).1, evs := (nextEv s.evs).2,
                    trace := s.trace ++ [Event.unlock true] } := by
  unfold settle at h
  by_cases hc : chunk.length = 0
  · simp only [hc, if_true] at h
    split at h
    · simp at h
    · simp at h
    · split at h <;> simp at h
  · simp only [hc, if_false] at h
    by_cases hu : (sysUnlock s.input (nextEv s.evs).1).2 = true
    · simp only [hu, if_true, Option.some.injEq, Prod.mk.injEq, Next.more.injEq] at h
      refine ⟨h.2.symm, ?_, hu, h.1.symm⟩
      intro h0; simp [h0] at hc
    · simp [hu] at h

theorem settle_done {σ : Type} (ofop : Ofile σ) (cfg : Config) (sfuel : Nat) (s s' : Loop σ)
    (chunk : List Byte) (h : settle ofop cfg sfuel s chunk = some (s', Next.done)) :
    chunk = [] ∧ ∃ of2 ret, ofop.of_close sfuel s.of = some (of2, ret) ∧ ret ≠ -1 ∧
      (cfg.trunc = true →
        (sysTruncate s.input (nextEv s.evs).1).2 = true ∧
        (sysUnlock (sysTruncate s.input (nextEv s.evs).1).1 (nextEv (nextEv s.evs).2).1).2 = true ∧
        s' = { s with
          of := of2
          input := (sysUnlock (sysTruncate s.input (nextEv s.evs).1).1
            (nextEv (nextEv s.evs).2).1).1
          evs := (nextEv (nextEv s.evs).2).2
          trace := s.trace ++ [Event.close ret] ++
            [Event.truncate s.input.locked (s.input.arrive (nextEv s.evs).1).data true] ++
            [Event.unlock true] }) ∧
      (cfg.trunc = false →
        (sysUnlock s.input (nextEv s.evs).1).2 = true ∧
        s' = { s with
          of := of2
          input := (sysUnlock s.input (nextEv s.evs).1).1
          evs := (nextEv s.evs).2
          trace := s.trace ++ [Event.close ret] ++ [Event.unlock true] }) := by
  unfold settle at h
  by_cases hc : chunk.length = 0
  · have hnil : chunk = [] := List.length_eq_zero.mp hc
    refine ⟨hnil, ?_⟩
    simp only [hc, if_true] at h
    cases hcl : ofop.of_close sfuel s.of with
    | none => simp [hcl] at h
    | some p =>
      obtain ⟨of2, ret⟩ := p
      refine ⟨of2, ret, rfl, ?_⟩
      simp only [hcl] at h
      by_cases hret : ret = -1
      · simp [hret] at h
      · refine ⟨hret, ?_, ?_⟩
        · intro ht
          simp only [hret, if_false, ht, if_true] at h
          by_cases h1 : (sysTruncate s.input (nextEv s.evs).1).2 = true
          · simp only [h1] at h
            by_cases h2 : (sysUnlock (sysTruncate s.input (nextEv s.evs).1).1
                (nextEv (nextEv s.evs).2).1).2 = true
            · simp only [h2, if_true, Option.some.injEq, Prod.mk.injEq, and_true] at h
              exact ⟨h1, h2, h.symm⟩
            · simp [h2] at h
          · simp only [Bool.not_eq_true] at h1
            simp [h1] at h
        · intro ht
          simp only [hret, if_false, ht, Bool.false_eq_true] at h
          by_cases h2 : (sysUnlock s.input (nextEv s.evs).1).2 = true
          · simp only [h2, if_true, Option.some.injEq, Prod.mk.injEq, and_true] at h
            refine ⟨h2, ?_⟩
            rw [← h]
          · simp [h2] at h
  · simp only [hc, if_false] at h
    by_cases hu : (sysUnlock s.input (nextEv s.evs).1).2 = true
    · simp [hu] at h
    · simp [hu] at h

/-! ## The calls on the input file -/

theorem arrive_locked (f : InFile) (ev : Ev) (h : f.locked = true) : f.arrive ev = f := by
  simp [InFile.arrive, h]

theorem arrive_FInv {init H : List Byte} {lk : Bool} {f : InFile} (ev : Ev)
    (h : FInv init H lk f) : FInv init H lk (f.arrive ev) := by
  unfold InFile.arrive
  split
  · exact h
  · refine ⟨h.locked_eq, ?_, ?_, ?_⟩
    · simp [h.data_eq]
    · simp; have := h.pos_le; omega
    · simp only; rw [List.take_append_of_le_length h.pos_le]; exact h.take_eq

theorem sysRead_spec {init H : List Byte} {lk : Bool} {f g : InFile} {ev : Ev} {c : List Byte}
    (h : FInv init H lk f) (hr : sysRead f ev = (g, some c)) :
    FInv init (H ++ c) lk g ∧ (c = [] → g.data.take g.pos = g.data) ∧
      g.arrived = (f.arrive ev).arrived := by
  have ha := arrive_FInv ev h
  unfold sysRead at hr
  simp only [] at hr
  split at hr
  · simp at hr
  · simp only [Prod.mk.injEq, Option.some.injEq] at hr
    obtain ⟨hg, hc⟩ := hr
    subst hg
    have hlen : c.length ≤ (f.arrive ev).data.length - (f.arrive ev).pos := by
      rw [← hc]; simp
    have hpos := ha.pos_le
    refine ⟨⟨ha.locked_eq, ha.data_eq, ?_, ?_⟩, ?_, rfl⟩
    · simp only; rw [hc]; omega
    · simp only
      rw [hc, List.take_add, ha.take_eq, ← hc]
      congr 1
      simp [List.take_take]
    · intro hnil
      simp only
      rw [hc, hnil]
      simp only [List.length_nil, Nat.add_zero]
      rw [hnil] at hc
      have : (List.drop (f.arrive ev).pos (f.arrive ev).data).length = 0 ∨ BUFSIZE = 0 := by
        rcases List.take_eq_nil_iff.mp hc with h1 | h1
        · right; exact h1
        · left; simp [h1]
      rcases this with h1 | h1
      · apply List.take_of_length_le
        simp at h1; omega
      · simp [BUFSIZE] at h1

theorem sysLock_spec {init H : List Byte} {f g : InFile} {ev : Ev}
    (h : FInv init H false f) (hr : sysLock f ev = (g, true)) : FInv init H true g := by
  have ha := arrive_FInv ev h
  unfold sysLock at hr
  simp only [] at hr
  split at hr
  · simp at hr
  · simp only [Prod.mk.injEq, and_true] at hr
    subst hr
    exact ⟨rfl, ha.data_eq, ha.pos_le, ha.take_eq⟩

theorem sysUnlock_spec {init H : List Byte} {f g : InFile} {ev : Ev}
    (h : FInv init H true f) (hr : sysUnlock f ev = (g, true)) :
    FInv init H false g ∧ g.data = f.data ∧ g.arrived = f.arrived := by
  unfold sysUnlock at hr
  rw [arrive_locked f ev h.locked_eq] at hr
  simp only [] at hr
  split at hr
  · simp at hr
  · simp only [Prod.mk.injEq, and_true] at hr
    subst hr
    exact ⟨⟨rfl, h.data_eq, h.pos_le, h.take_eq⟩, rfl, rfl⟩

theorem sysTruncate_spec {init H : List Byte} {f g : InFile} {ev : Ev}
    (h : FInv init H true f) (hr : sysTruncate f ev = (g, true)) :
    g.locked = true ∧ g.data = [] ∧ g.arrived = f.arrived ∧ (f.arrive ev).data = f.data := by
  unfold sysTruncate at hr
  rw [arrive_locked f ev h.locked_eq] at hr
  simp only [] at hr
  split at hr
  · simp at hr
  · simp only [Prod.mk.injEq, and_true] at hr
    subst hr
    exact ⟨h.locked_eq, rfl, rfl, by rw [arrive_locked f ev h.locked_eq]⟩

/-- After a truncation under the lock the lock can be released; the file stays empty. -/
theorem sysUnlock_plain {f g : InFile} {ev : Ev} (hl : f.locked = true)
    (hr : sysUnlock f ev = (g, true)) :
    g.locked = false ∧ g.data = f.data ∧ g.arrived = f.arrived := by
  unfold sysUnlock at hr
  rw [arrive_locked f ev hl] at hr
  simp only [] at hr
  split at hr
  · simp at hr
  · simp only [Prod.mk.injEq, and_true] at hr
    subst hr
    exact ⟨rfl, rfl, rfl⟩

theorem confirm_exit {σ : Type} (ofop : Ofile σ) (cfg : Config) (sfuel : Nat) (s s' : Loop σ)
    (c : Nat) (h : confirm ofop cfg sfuel s = some (s', Next.exit c)) : c = 1 := by
  unfold confirm at h
  simp only [] at h
  split at h
  · split at h
    · simp at h; exact h.2.symm
    · exact settle_exit _ _ _ _ _ _ _ h
  · simp at h; exact h.2.symm

theorem confirm_more {σ : Type} (ofop : Ofile σ) (cfg : Config) (sfuel : Nat) (s s' : Loop σ)
    (c : List Byte) (h : confirm ofop cfg sfuel s = some (s', Next.more c)) :
    ∃ f1 f2 f3 e1 e2 e3 evs, sysLock s.input e1 = (f1, true) ∧ sysRead f1 e2 = (f2, some c) ∧
      c ≠ [] ∧ sysUnlock f2 e3 = (f3, true) ∧
      s' = { s with input := f3, evs := evs,
                    trace := s.trace ++ [Event.lock true] ++ [Event.read f1.locked c] ++
                      [Event.unlock true] } := by
  unfold confirm at h
  simp only [] at h
  split at h
  · rename_i hl
    split at h
    · simp at h
    · rename_i chunk hr
      obtain ⟨hc, hne, hu, hs⟩ := settle_more _ _ _ _ _ _ _ h
      subst hc
      rw [hl] at hs
      exact ⟨_, _, _, _, _, _, _, Prod.ext rfl hl, Prod.ext rfl hr, hne, Prod.ext rfl hu, hs⟩
  · simp at h

theorem confirm_done {σ : Type} (ofop : Ofile σ) (cfg : Config) (sfuel : Nat) (s s' : Loop σ)
    (h : confirm ofop cfg sfuel s = some (s', Next.done)) :
    ∃ f1 f2 f3 e1 e2 of2 ret evs tail, sysLock s.input e1 = (f1, true) ∧
      sysRead f1 e2 = (f2, some []) ∧ ofop.of_close sfuel s.of = some (of2, ret) ∧ ret ≠ -1 ∧
      (cfg.trunc = true → ∃ ft e3 e4, sysTruncate f2 e3 = (ft, true) ∧
        sysUnlock ft e4 = (f3, true) ∧
        tail = [Event.truncate f2.locked (f2.arrive e3).data true]) ∧
      (cfg.trunc = false → ∃ e3, sysUnlock f2 e3 = (f3, true) ∧ tail = []) ∧
      s' = { s with input := f3, evs := evs, of := of2,
                    trace := s.trace ++ [Event.lock true] ++ [Event.read f1.locked []] ++
                      [Event.close ret] ++ tail ++ [Event.unlock true] } := by
  unfold confirm at h
  simp only [] at h
  split at h
  · rename_i hl
    split at h
    · simp at h
    · rename_i chunk hr
      obtain ⟨hc, of2, ret, hcl, hret, ht, hf⟩ := settle_done _ _ _ _ _ _ h
      subst hc
      cases htr : cfg.trunc with
      | true =>
        obtain ⟨h1, h2, hs⟩ := ht htr
        rw [hl] at hs
        simp only [List.append_assoc] at hs
        exact ⟨_, _, _, _, _, of2, ret, _, _, Prod.ext rfl hl, Prod.ext rfl hr, hcl, hret,
          fun _ => ⟨_, _, _, Prod.ext rfl h1, Prod.ext rfl h2, rfl⟩, fun hh => by simp at hh,
          by simp only [List.append_assoc]; exact hs⟩
      | false =>
        obtain ⟨h2, hs⟩ := hf htr
        rw [hl] at hs
        simp only [List.append_assoc] at hs
        exact ⟨_, _, _, _, _, of2, ret, _, [], Prod.ext rfl hl, Prod.ext rfl hr, hcl, hret,
          fun hh => by simp at hh, fun _ => ⟨_, Prod.ext rfl h2, rfl⟩,
          by simp only [List.append_assoc, List.nil_append]; exact hs⟩
  · simp at h

/-! ## The invariant is kept -/

theorem LoopInv.toFInv {σ : Type} {cfg : Config} {init : List Byte} {s : Loop σ}
    (h : LoopInv cfg init s) : FInv init (handed s.trace) false s.input :=
  ⟨h.unlocked, h.data_eq, h.pos_le, h.handed_eq.symm⟩

theorem body_exit {σ : Type} (ofop : Ofile σ) (cfg : Config) (sfuel : Nat) (s s' : Loop σ)
    (c : Nat) (h : body ofop cfg sfuel s = some (s', Flow.exit c)) : c = 1 := by
  unfold body at h
  simp only [] at h
  split at h
  · simp at h; exact h.2.symm
  · split at h
    · simp at h
    · rename_i s2 code hg
      simp only [Option.some.injEq, Prod.mk.injEq, Flow.exit.injEq] at h
      rw [← h.2]
      split at hg
      · exact confirm_exit _ _ _ _ _ _ hg
      · simp at hg
    · simp at h
    · rename_i s2 c2 hg
      split at h
      · simp at h
      · rename_i s3 code hf
        simp only [Option.some.injEq, Prod.mk.injEq, Flow.exit.injEq] at h
        rw [← h.2]
        obtain ⟨of2, ret, _, hx, _⟩ := feed_eq _ _ _ _ _ _ _ hf
        by_cases hret : ret = -1
        · simp [hret] at hx; exact hx
        · simp [hret] at hx
      · simp at h

/-- A new chunk handed to the sink after the trace `mid` keeps the invariant. -/
theorem LoopInv.extend {σ : Type} {cfg : Config} {init : List Byte} {s : Loop σ}
    (h : LoopInv cfg init s) (f : InFile) (evs : List Ev) (of2 : σ) (mid : List Event)
    (c : List Byte) (ret : Int) (hf : FInv init (handed s.trace ++ c) false f)
    (hret : ret ≠ -1) (hw : writesOf mid = [])
    (hr : (readsOf mid).filter (fun c => !c.isEmpty) = [c])
    (ht : ∀ e ∈ mid, e.isTruncate = false) (hfail : ∀ e ∈ mid, e.failed = false) :
    LoopInv cfg init
      { s with
        input := f
        evs := evs
        iflen := if cfg.meta then s.iflen + c.length else s.iflen
        md5c := if cfg.meta then s.md5c ++ c else s.md5c
        sha256c := if cfg.meta then s.sha256c ++ c else s.sha256c
        of := of2
        trace := s.trace ++ mid ++ [Event.write c ret] } := by
  have hh : handed (s.trace ++ mid ++ [Event.write c ret]) = handed s.trace ++ c := by
    simp only [handed, writesOf_append, hw, List.append_nil, List.flatten_append]
    simp [writesOf, Event.writeChunk]
  refine ⟨hf.locked_eq, hf.data_eq, hf.pos_le, ?_, ?_, ?_, ?_, ?_⟩
  · simp only; rw [hh, hf.take_eq]
  · simp only [writesOf_append, readsOf_append, List.filter_append, hw, hr, h.writes_eq]
    simp [writesOf, readsOf, Event.writeChunk, Event.readChunk]
  · intro e he
    simp only [List.mem_append, List.mem_singleton] at he
    rcases he with (he | he) | he
    · exact h.no_trunc e he
    · exact ht e he
    · subst he; rfl
  · intro e he
    simp only [List.mem_append, List.mem_singleton] at he
    rcases he with (he | he) | he
    · exact h.no_fail e he
    · exact hfail e he
    · subst he; simp [Event.failed, hret]
  · intro hm
    obtain ⟨h1, h2, h3⟩ := h.digests hm
    simp only [hm, if_true, hh]
    refine ⟨?_, ?_, ?_⟩
    · simp [h1]
    · rw [h2]
    · rw [h3]

theorem body_cont {σ : Type} (ofop : Ofile σ) (cfg : Config) (sfuel : Nat) (init : List Byte)
    (s s' : Loop σ) (hinv : LoopInv cfg init s)
    (h : body ofop cfg sfuel s = some (s', Flow.cont)) : LoopInv cfg init s' := by
  unfold body at h
  simp only [] at h
  split at h
  · simp at h
  · rename_i chunk hr
    have hr1 := sysRead_spec hinv.toFInv (Prod.ext rfl hr :
      sysRead s.input (nextEv s.evs).1 = ((sysRead s.input (nextEv s.evs).1).1, some chunk))
    split at h
    · simp at h
    · simp at h
    · simp at h
    · rename_i s2 c hg
      split at h
      · simp at h
      · simp at h
      · rename_i s3 hf
        simp only [Option.some.injEq, Prod.mk.injEq, and_true] at h
        subst h
        obtain ⟨of2, ret, _, hx, hs3⟩ := feed_eq _ _ _ _ _ _ _ hf
        have hret : ret ≠ -1 := by
          intro hh; simp [hh] at hx
        by_cases hz : chunk.length = 0
        · have hnil : chunk = [] := List.length_eq_zero.mp hz
          subst hnil
          simp only [List.length_nil, if_true] at hg
          obtain ⟨f1, f2, f3, e1, e2, e3, evs, hl, hrd, hne, hu, hs2⟩ :=
            confirm_more _ _ _ _ _ _ hg
          simp only [List.append_nil] at hr1
          have h1 := sysLock_spec hr1.1 hl
          have h2 := sysRead_spec h1 hrd
          have h3 := sysUnlock_spec h2.1 hu
          rw [hs3, hs2]
          simp only [List.append_assoc]
          have := hinv.extend f3 evs of2
            ([Event.read s.input.locked []] ++ [Event.lock true] ++ [Event.read f1.locked c] ++
              [Event.unlock true]) c ret h3.1 hret (by simp [writesOf, Event.writeChunk])
            (by
              have : c.isEmpty = false := by
                cases c with
                | nil => exact absurd rfl hne
                | cons a l => rfl
              simp [readsOf, Event.readChunk, List.filter, this])
            (by simp [Event.isTruncate]) (by simp [Event.failed])
          simpa only [List.append_assoc] using this
        · simp only [hz, if_false, Option.some.injEq, Prod.mk.injEq, Next.more.injEq] at hg
          obtain ⟨hs2, hc⟩ := hg
          subst hc
          rw [hs3, ← hs2]
          have := hinv.extend (sysRead s.input (nextEv s.evs).1).1 (nextEv s.evs).2 of2
            [Event.read s.input.locked chunk] chunk ret hr1.1 hret
            (by simp [writesOf, Event.writeChunk])
            (by
              have : chunk.isEmpty = false := by
                cases chunk with
                | nil => simp at hz
                | cons a l => rfl
              simp [readsOf, Event.readChunk, List.filter, this])
            (by simp [Event.isTruncate]) (by simp [Event.failed])
          exact this

theorem lastPass_ok (cfg : Config) (removed : List Byte) (ret : Int) (hret : ret ≠ -1) :
    ∀ e ∈ lastPass cfg removed ret, e.failed = false := by
  unfold lastPass
  cases cfg.trunc <;> simp [Event.failed, hret]

theorem body_brk {σ : Type} (ofop : Ofile σ) (cfg : Config) (sfuel : Nat) (init : List Byte)
    (s s' : Loop σ) (hinv : LoopInv cfg init s)
    (h : body ofop cfg sfuel s = some (s', Flow.brk)) : LoopPost cfg init s' := by
  unfold body at h
  simp only [] at h
  split at h
  · simp at h
  · rename_i chunk hr
    have hr1 := sysRead_spec hinv.toFInv (Prod.ext rfl hr :
      sysRead s.input (nextEv s.evs).1 = ((sysRead s.input (nextEv s.evs).1).1, some chunk))
    split at h
    · simp at h
    · simp at h
    · rename_i s2 hg
      simp only [Option.some.injEq, Prod.mk.injEq, and_true] at h
      subst h
      by_cases hz : chunk.length = 0
      · have hnil : chunk = [] := List.length_eq_zero.mp hz
        subst hnil
        simp only [List.length_nil, if_true] at hg
        obtain ⟨f1, f2, f3, e1, e2, of2, ret, evs, tail, hl, hrd, _, hret, htr, hntr, hs2⟩ :=
          confirm_done _ _ _ _ _ hg
        simp only [List.append_nil] at hr1
        have h1 := sysLock_spec hr1.1 hl
        have h2 := sysRead_spec h1 hrd
        simp only [List.append_nil] at h2
        have hdata : f2.data = handed s.trace := by
          rw [← h2.2.1 trivial]; exact h2.1.take_eq
        have hlk1 : f1.locked = true := h1.locked_eq
        have hlk0 : s.input.locked = false := hinv.unlocked
        -- the tail and the final file
        have key : tail = (if cfg.trunc then [Event.truncate true (handed s.trace) true] else [])
            ∧ f3.locked = false ∧ f3.arrived = f2.arrived ∧
            f3.data = (if cfg.trunc then [] else init ++ f3.arrived) := by
          cases hc : cfg.trunc with
          | true =>
            obtain ⟨ft, e3, e4, ht, hu, htail⟩ := htr hc
            obtain ⟨t1, t2, t3, t4⟩ := sysTruncate_spec h2.1 ht
            obtain ⟨u1, u2, u3⟩ := sysUnlock_plain t1 hu
            refine ⟨?_, u1, by rw [u3, t3], by simp [u2, t2]⟩
            rw [htail, t4, hdata, h2.1.locked_eq]; simp
          | false =>
            obtain ⟨e3, hu, htail⟩ := hntr hc
            obtain ⟨u1, u2, u3⟩ := sysUnlock_spec h2.1 hu
            refine ⟨by simp [htail], u1.locked_eq, u3, ?_⟩
            simp only [Bool.false_eq_true, if_false]
            exact u1.data_eq
        obtain ⟨k1, k2, k3, k4⟩ := key
        have htrace : s2.trace = s.trace ++ lastPass cfg (handed s.trace) ret := by
          rw [hs2]; simp [lastPass, hlk0, hlk1, k1]
        have hhanded : handed s2.trace = handed s.trace := by
          rw [htrace]
          simp only [handed_append, lastPass]
          cases cfg.trunc <;> simp [handed, writesOf, Event.writeChunk]
        have hin : s2.input = f3 := by rw [hs2]
        refine ⟨⟨s.trace, ret, htrace, hret, hinv.no_trunc, hinv.writes_eq⟩, ?_, ?_, ?_, ?_, ?_⟩
        · intro e he
          rw [htrace] at he
          simp only [List.mem_append] at he
          rcases he with he | he
          · exact hinv.no_fail e he
          · exact lastPass_ok cfg _ ret hret e he
        · rw [hhanded, hin, k3, ← hdata]; exact h2.1.data_eq
        · rw [hin]; exact k4
        · rw [hin]; exact k2
        · intro hm
          rw [hhanded]
          have := hinv.digests hm
          rw [hs2]; exact this
      · simp [hz] at hg
    · split at h <;> simp at h

theorem copyLoop_spec {σ : Type} (ofop : Ofile σ) (cfg : Config) (sfuel : Nat)
    (init : List Byte) (fuel : Nat) :
    ∀ (s s' : Loop σ) (x : Option Nat), LoopInv cfg init s →
      copyLoop ofop cfg sfuel fuel s = some (s', x) →
      (x = none → LoopPost cfg init s') ∧ (∀ c, x = some c → c = 1) := by
  induction fuel with
  | zero => intro s s' x _ h; simp [copyLoop] at h
  | succ n ih =>
    intro s s' x hinv h
    unfold copyLoop at h
    split at h
    · simp at h
    · rename_i s1 code hb
      simp only [Option.some.injEq, Prod.mk.injEq] at h
      obtain ⟨_, hx⟩ := h
      subst hx
      refine ⟨fun hh => by simp at hh, fun c hc => ?_⟩
      simp only [Option.some.injEq] at hc
      subst hc
      exact body_exit _ _ _ _ _ _ hb
    · rename_i s1 hb
      simp only [Option.some.injEq, Prod.mk.injEq] at h
      obtain ⟨hs, hx⟩ := h
      subst hs hx
      exact ⟨fun _ => body_brk _ _ _ _ _ _ hinv hb, fun c hc => by simp at hc⟩
    · rename_i s1 hb
      exact ih s1 s' x (body_cont _ _ _ _ _ _ hinv hb) h

theorem fprintf_trace (mf : Mf) (s : List Char) :
    ∃ ok, (fprintf mf s).trace = mf.trace ++ [Event.metaPrint ok] := by
  unfold fprintf
  split
  · exact ⟨false, rfl⟩
  · exact ⟨true, rfl⟩
  · exact ⟨true, rfl⟩

theorem fclose_trace (mf : Mf) :
    ∃ ok, (fclose mf).trace = mf.trace ++ [Event.metaClose ok] := by
  unfold fclose
  split
  · exact ⟨false, rfl⟩
  · exact ⟨true, rfl⟩
  · exact ⟨true, rfl⟩

theorem fprintf_fold_trace (bs : List Byte) :
    ∀ mf : Mf, ∃ post, (bs.foldl (fun m b => fprintf m (fmt02x b)) mf).trace = mf.trace ++ post ∧
      ∀ e ∈ post, e.isMetaIO = true := by
  induction bs with
  | nil => intro mf; exact ⟨[], by simp, by simp⟩
  | cons b bs ih =>
    intro mf
    obtain ⟨post, h1, h2⟩ := ih (fprintf mf (fmt02x b))
    obtain ⟨ok, h3⟩ := fprintf_trace mf (fmt02x b)
    refine ⟨Event.metaPrint ok :: post, ?_, ?_⟩
    · simp only [List.foldl_cons, h1, h3, List.append_assoc, List.singleton_append]
    · intro e he
      simp only [List.mem_cons] at he
      rcases he with he | he
      · subst he; rfl
      · exact h2 e he

theorem writeMeta_trace (mf : Mf) (ifile : List Char) (iflen : Nat) (d1 d2 : List Byte) :
    ∃ post, (writeMeta mf ifile iflen d1 d2).trace = mf.trace ++ post ∧
      ∀ e ∈ post, e.isMetaIO = true := by
  unfold writeMeta
  simp only []
  obtain ⟨o1, h1⟩ := fprintf_trace mf
    ("ifile=".toList ++ ifile ++ "\nlen=".toList ++ fmtLlu iflen ++ "\n".toList)
  generalize fprintf mf
    ("ifile=".toList ++ ifile ++ "\nlen=".toList ++ fmtLlu iflen ++ "\n".toList) = m1 at *
  obtain ⟨o2, h2⟩ := fprintf_trace m1 "md5=".toList
  generalize fprintf m1 "md5=".toList = m2 at *
  obtain ⟨p3, h3, q3⟩ := fprintf_fold_trace d1 m2
  generalize d1.foldl (fun m b => fprintf m (fmt02x b)) m2 = m3 at *
  obtain ⟨o4, h4⟩ := fprintf_trace m3 "\n".toList
  generalize fprintf m3 "\n".toList = m4 at *
  obtain ⟨o5, h5⟩ := fprintf_trace m4 "sha256=".toList
  generalize fprintf m4 "sha256=".toList = m5 at *
  obtain ⟨p6, h6, q6⟩ := fprintf_fold_trace d2 m5
  generalize d2.foldl (fun m b => fprintf m (fmt02x b)) m5 = m6 at *
  obtain ⟨o7, h7⟩ := fprintf_trace m6 "\n".toList
  generalize fprintf m6 "\n".toList = m7 at *
  obtain ⟨o8, h8⟩ := fclose_trace m7
  refine ⟨[Event.metaPrint o1] ++ [Event.metaPrint o2] ++ p3 ++ [Event.metaPrint o4] ++
    [Event.metaPrint o5] ++ p6 ++ [Event.metaPrint o7] ++ [Event.metaClose o8], ?_, ?_⟩
  · rw [h8, h7, h6, h5, h4, h3, h2, h1]; simp only [List.append_assoc]
  · intro e he
    simp only [List.mem_append, List.mem_singleton] at he
    rcases he with ((((((he | he) | he) | he) | he) | he) | he) | he
    · subst he; rfl
    · subst he; rfl
    · exact q3 e he
    · subst he; rfl
    · subst he; rfl
    · exact q6 e he
    · subst he; rfl
    · subst he; rfl

/-! ## Runs that exit with status 0 -/

theorem LoopInv.start {σ : Type} (cfg : Config) (env : Env) (sk : σ) :
    LoopInv cfg env.input
      ({ input := { data := env.input, pos := 0, locked := false, arrived := [] },
         evs := env.evs, of := sk, iflen := 0, md5c := MD5_Init, sha256c := SHA256_Init,
         trace := prelude cfg } : Loop σ) := by
  refine ⟨rfl, by simp, by simp, ?_, ?_, ?_, ?_, ?_⟩
  · unfold prelude; split <;> simp [handed, writesOf, Event.writeChunk]
  · unfold prelude; split <;> simp [readsOf, writesOf, Event.writeChunk, Event.readChunk]
  · unfold prelude; split <;> simp [Event.isTruncate]
  · unfold prelude; split <;> simp [Event.failed]
  · intro _
    have : handed (prelude cfg) = [] := by
      unfold prelude; split <;> simp [handed, writesOf, Event.writeChunk]
    simp [this, MD5_Init, SHA256_Init]

theorem startup_inr {σ : Type} (ofop : Ofile σ) (cfg : Config) (env : Env) (s0 : Loop σ)
    (h : startup ofop cfg env = Sum.inr s0) :
    ¬ (0 < cfg.size ∧ (env.input.length : Int) < cfg.size) ∧ env.openInFails = false ∧
      env.openOutFails = false ∧
      ∃ sk, ofop.of_fdopen { env.out with data := [], closed := false } cfg.level = some sk ∧
        s0 = { input := { data := env.input, pos := 0, locked := false, arrived := [] },
               evs := env.evs, of := sk, iflen := 0, md5c := MD5_Init,
               sha256c := SHA256_Init, trace := prelude cfg } := by
  unfold startup at h
  by_cases h1 : env.openInFails = true
  · simp [h1] at h
  · simp only [h1, Bool.false_eq_true, if_false] at h
    by_cases hsz : cfg.size > 0
    · simp only [hsz, if_true] at h
      by_cases h2 : env.fstatFails = true
      · simp [h2] at h
      · simp only [h2, Bool.false_eq_true, if_false] at h
        by_cases h3 : (env.input.length : Int) < cfg.size
        · simp [h3] at h
        · simp only [h3, if_false] at h
          by_cases h4 : env.openOutFails = true
          · simp [h4] at h
          · simp only [h4, Bool.false_eq_true, if_false] at h
            split at h
            · simp at h
            · rename_i sk hsk
              simp only [Sum.inr.injEq] at h
              refine ⟨fun hh => h3 hh.2, by simpa using h1, by simpa using h4, sk, hsk, ?_⟩
              rw [← h]; simp [prelude, hsz]
    · simp only [hsz, if_false] at h
      by_cases h4 : env.openOutFails = true
      · simp [h4] at h
      · simp only [h4, Bool.false_eq_true, if_false] at h
        split at h
        · simp at h
        · rename_i sk hsk
          simp only [Sum.inr.injEq] at h
          refine ⟨fun hh => hsz hh.1, by simpa using h1, by simpa using h4, sk, hsk, ?_⟩
          rw [← h]; simp [prelude, hsz]

theorem startup_inl_zero {σ : Type} (ofop : Ofile σ) (cfg : Config) (env : Env) (r : Result σ)
    (h : startup ofop cfg env = Sum.inl r) (hexit : r.exit = 0) :
    0 < cfg.size ∧ (env.input.length : Int) < cfg.size ∧ env.openInFails = false ∧
      env.fstatFails = false ∧
      r = { exit := 0, trace := [Event.openIn true, Event.fstat true],
            input := some { data := env.input, pos := 0, locked := false, arrived := [] },
            sink := none, metaFile := none } := by
  unfold startup at h
  by_cases h1 : env.openInFails = true
  · simp [h1] at h; rw [← h] at hexit; simp at hexit
  · simp only [h1, Bool.false_eq_true, if_false] at h
    by_cases hsz : cfg.size > 0
    · simp only [hsz, if_true] at h
      by_cases h2 : env.fstatFails = true
      · simp [h2] at h; rw [← h] at hexit; simp at hexit
      · simp only [h2, Bool.false_eq_true, if_false] at h
        by_cases h3 : (env.input.length : Int) < cfg.size
        · simp only [h3, if_true, Sum.inl.injEq] at h
          exact ⟨hsz, h3, by simpa using h1, by simpa using h2, by rw [← h]; rfl⟩
        · simp only [h3, if_false] at h
          by_cases h4 : env.openOutFails = true
          · simp [h4] at h; rw [← h] at hexit; simp at hexit
          · simp only [h4, Bool.false_eq_true, if_false] at h
            split at h
            · simp at h; rw [← h] at hexit; simp at hexit
            · rename_i sk hsk
              simp at h
    · simp only [hsz, if_false] at h
      by_cases h4 : env.openOutFails = true
      · simp [h4] at h; rw [← h] at hexit; simp at hexit
      · simp only [h4, Bool.false_eq_true, if_false] at h
        split at h
        · simp at h; rw [← h] at hexit; simp at hexit
        · rename_i sk hsk
          simp at h

/-- A run that exits with status 0 either stopped at the size gate, or went through the copy
loop to the `break` and then through the metadata block. -/
theorem main_ok {σ : Type} (ofop : Ofile σ) (cfg : Config) (env : Env) (fuel sfuel : Nat)
    (r : Result σ) (h : main ofop cfg env fuel sfuel = some r) (hexit : r.exit = 0) :
    (startup ofop cfg env = Sum.inl r) ∨
    (∃ s0 s : Loop σ, startup ofop cfg env = Sum.inr s0 ∧ LoopPost cfg env.input s ∧
      r = finish cfg env s) := by
  unfold main at h
  split at h
  · rename_i r0 hst
    simp only [Option.some.injEq] at h
    subst h
    exact Or.inl hst
  · rename_i s0 hst
    obtain ⟨_, _, _, sk, _, hs0⟩ := startup_inr _ _ _ _ hst
    have hinv : LoopInv cfg env.input s0 := by rw [hs0]; exact LoopInv.start cfg env sk
    split at h
    · simp at h
    · rename_i s code hl
      have := (copyLoop_spec ofop cfg sfuel env.input fuel s0 s (some code) hinv hl).2 code rfl
      simp only [Option.some.injEq] at h
      rw [← h] at hexit
      simp only at hexit
      omega
    · rename_i s hl
      have := (copyLoop_spec ofop cfg sfuel env.input fuel s0 s none hinv hl).1 rfl
      simp only [Option.some.injEq] at h
      exact Or.inr ⟨s0, s, hst, this, h.symm⟩

theorem finish_zero {σ : Type} (cfg : Config) (env : Env) (s : Loop σ)
    (hexit : (finish cfg env s).exit = 0) :
    (cfg.meta = false ∧ finish cfg env s =
      { exit := 0, trace := s.trace, input := some s.input, sink := some s.of,
        metaFile := none }) ∨
    (cfg.meta = true ∧ env.asprintfFails = false ∧ env.metaOpenFails = false ∧
      finish cfg env s =
        { exit := 0, trace := (metaBlock cfg env s).trace, input := some s.input,
          sink := some s.of,
          metaFile := some (cfg.ofile ++ ".meta".toList, (metaBlock cfg env s).data) }) := by
  unfold finish at hexit ⊢
  cases hm : cfg.meta with
  | false => left; simp
  | true =>
    right
    simp only [hm, if_true] at hexit ⊢
    by_cases h1 : env.asprintfFails = true
    · simp [h1] at hexit
    · by_cases h2 : env.metaOpenFails = true
      · simp [h1, h2] at hexit
      · simp [h1, h2]

theorem finish_trace {σ : Type} (cfg : Config) (env : Env) (s : Loop σ)
    (hexit : (finish cfg env s).exit = 0) :
    ∃ post, (finish cfg env s).trace = s.trace ++ post ∧ ∀ e ∈ post, e.afterLoop = true := by
  rcases finish_zero cfg env s hexit with ⟨_, h⟩ | ⟨_, _, _, h⟩
  · rw [h]; exact ⟨[], by simp, by simp⟩
  · rw [h]
    obtain ⟨post, hp, hq⟩ := writeMeta_trace
      { data := [], fails := env.metaFails,
        trace := s.trace ++ [Event.metaName true, Event.metaOpen true] }
      cfg.ifile s.iflen (MD5_Final s.md5c) (SHA256_Final s.sha256c)
    refine ⟨[Event.metaName true, Event.metaOpen true] ++ post, ?_, ?_⟩
    · simp only [metaBlock, hp, List.append_assoc]
    · intro e he
      simp only [List.mem_append, List.mem_cons, List.mem_singleton, List.not_mem_nil,
        or_false] at he
      rcases he with (he | he) | he
      · subst he; rfl
      · subst he; rfl
      · have := hq e he
        cases e <;> simp_all [Event.isMetaIO, Event.afterLoop]

theorem flatten_filter_nonempty (l : List (List Byte)) :
    (l.filter (fun c => !c.isEmpty)).flatten = l.flatten := by
  induction l with
  | nil => rfl
  | cons a l ih =>
    cases a with
    | nil => simpa [List.filter] using ih
    | cons x xs => simp [List.filter, ih]

theorem afterLoop_quiet (post : List Event) (h : ∀ e ∈ post, e.afterLoop = true) :
    readsOf post = [] ∧ writesOf post = [] ∧ (∀ e ∈ post, e.isTruncate = false) ∧
      (∀ e ∈ post, e.failedChecked = false) := by
  refine ⟨?_, ?_, ?_, ?_⟩
  · simp only [readsOf, List.filterMap_eq_nil_iff]
    intro e he
    have := h e he
    cases e <;> simp_all [Event.afterLoop, Event.readChunk]
  · simp only [writesOf, List.filterMap_eq_nil_iff]
    intro e he
    have := h e he
    cases e <;> simp_all [Event.afterLoop, Event.writeChunk]
  · intro e he
    have := h e he
    cases e <;> simp_all [Event.afterLoop, Event.isTruncate]
  · intro e he
    have := h e he
    cases e <;> simp_all [Event.afterLoop, Event.failedChecked, Event.failed]

/-- A run that ends with status 0 after opening the sink went through the copy loop. -/
theorem main_rotated {σ : Type} (ofop : Ofile σ) (cfg : Config) (env : Env) (fuel sfuel : Nat)
    (r : Result σ) (h : main ofop cfg env fuel sfuel = some r) (hexit : r.exit = 0)
    (hrot : r.sink.isSome = true) :
    ∃ s : Loop σ, LoopPost cfg env.input s ∧ r = finish cfg env s := by
  rcases main_ok ofop cfg env fuel sfuel r h hexit with hst | ⟨s0, s, _, hpost, hr⟩
  · obtain ⟨_, _, _, _, hr⟩ := startup_inl_zero ofop cfg env r hst hexit
    rw [hr] at hrot
    simp at hrot
  · exact ⟨s, hpost, hr⟩

/-- The copy loop on a run that exits with status 0. -/
theorem copy_loop_post {σ : Type} (ofop : Ofile σ) (cfg : Config) (env : Env)
    (fuel sfuel : Nat) (r : Result σ) (h : main ofop cfg env fuel sfuel = some r)
    (hexit : r.exit = 0) (hrot : r.sink.isSome = true) :
    ∃ pre post f,
      r.trace = pre ++ [Event.read false [], Event.lock true, Event.read true []] ++ post ∧
      readsOf post = [] ∧ writesOf post = [] ∧
      writesOf r.trace = (readsOf r.trace).filter (fun c => !c.isEmpty) ∧
      handed r.trace = (readsOf r.trace).flatten ∧
      r.input = some f ∧ handed r.trace = env.input ++ f.arrived := by
  obtain ⟨s, hpost, hr⟩ := main_rotated ofop cfg env fuel sfuel r h hexit hrot
  have hz : (finish cfg env s).exit = 0 := by rw [← hr]; exact hexit
  obtain ⟨post, htr, hq⟩ := finish_trace cfg env s hz
  obtain ⟨q1, q2, _, _⟩ := afterLoop_quiet post hq
  obtain ⟨pre, ret, hshape, _, _, hw⟩ := hpost.shape
  have hin : r.input = some s.input := by
    rw [hr]
    rcases finish_zero cfg env s hz with ⟨_, e⟩ | ⟨_, _, _, e⟩ <;> rw [e]
  have htrace : r.trace = s.trace ++ post := by rw [hr]; exact htr
  have hmid : readsOf (lastPass cfg (handed pre) ret) = [[], []] ∧
      writesOf (lastPass cfg (handed pre) ret) = [] := by
    unfold lastPass
    cases cfg.trunc <;> simp [readsOf, writesOf, Event.readChunk, Event.writeChunk]
  have hwr : writesOf r.trace = (readsOf r.trace).filter (fun c => !c.isEmpty) := by
    rw [htrace, hshape]
    simp only [writesOf_append, readsOf_append, hmid.1, hmid.2, q1, q2, List.append_nil,
      List.filter_append, hw]
    simp [List.filter]
  refine ⟨pre, ([Event.close ret] ++
      (if cfg.trunc then [Event.truncate true (handed pre) true] else []) ++
      [Event.unlock true]) ++ post, s.input, ?_, ?_, ?_, hwr, ?_, hin, ?_⟩
  · rw [htrace, hshape]; simp [lastPass]
  · simp only [readsOf_append, q1, List.append_nil]
    cases cfg.trunc <;> simp [readsOf, Event.readChunk]
  · simp only [writesOf_append, q2, List.append_nil]
    cases cfg.trunc <;> simp [writesOf, Event.writeChunk]
  · rw [handed, hwr, flatten_filter_nonempty]
  · have : handed r.trace = handed s.trace := by
      rw [htrace, handed_append]
      simp [handed, q2]
    rw [this]; exact hpost.all_handed

/-- C2. Truncation safety.  On every run that goes through the copy loop and exits with
status 0 the trace is `pre`, then the zero-length `read`, the lock, the zero-length `read`
under the lock, a close of the sink that did not return `-1`, the truncation when it is
enabled, the unlock, then `post`; neither `pre` nor `post` holds a truncation.  With truncation
enabled that single `ftruncate` runs with the lock held, finds in the file exactly the bytes
handed to the sink before it, and leaves the file empty.  With truncation disabled
`ftruncate` is never called and the file is what it was at the start followed by what the
writer appended. -/
theorem truncation_once_under_lock {σ : Type} (ofop : Ofile σ) (cfg : Config) (env : Env)
    (fuel sfuel : Nat) (r : Result σ) (h : main ofop cfg env fuel sfuel = some r)
    (hexit : r.exit = 0) (hrot : r.sink.isSome = true) :
    ∃ pre post ret f, ret ≠ -1 ∧ r.input = some f ∧
      (∀ e ∈ pre, e.isTruncate = false) ∧ (∀ e ∈ post, e.isTruncate = false) ∧
      (cfg.trunc = true →
        r.trace = pre ++ [Event.read false [], Event.lock true, Event.read true [],
          Event.close ret, Event.truncate true (handed pre) true, Event.unlock true] ++ post ∧
        f.data = []) ∧
      (cfg.trunc = false →
        r.trace = pre ++ [Event.read false [], Event.lock true, Event.read true [],
          Event.close ret, Event.unlock true] ++ post ∧
        (∀ e ∈ r.trace, e.isTruncate = false) ∧
        f.data = env.input ++ f.arrived) := by
  obtain ⟨s, hpost, hr⟩ := main_rotated ofop cfg env fuel sfuel r h hexit hrot
  have hz : (finish cfg env s).exit = 0 := by rw [← hr]; exact hexit
  obtain ⟨post, htr, hq⟩ := finish_trace cfg env s hz
  obtain ⟨_, _, q3, _⟩ := afterLoop_quiet post hq
  obtain ⟨pre, ret, hshape, hret, hpre, _⟩ := hpost.shape
  have hin : r.input = some s.input := by
    rw [hr]
    rcases finish_zero cfg env s hz with ⟨_, e⟩ | ⟨_, _, _, e⟩ <;> rw [e]
  have htrace : r.trace = s.trace ++ post := by rw [hr]; exact htr
  refine ⟨pre, post, ret, s.input, hret, hin, hpre, q3, ?_, ?_⟩
  · intro ht
    refine ⟨?_, ?_⟩
    · rw [htrace, hshape]; simp [lastPass, ht]
    · have := hpost.data_after; simpa [ht] using this
  · intro ht
    have e1 : r.trace = pre ++ [Event.read false [], Event.lock true, Event.read true [],
        Event.close ret, Event.unlock true] ++ post := by
      rw [htrace, hshape]; simp [lastPass, ht]
    refine ⟨e1, ?_, ?_⟩
    · intro e he
      rw [e1] at he
      simp only [List.mem_append, List.mem_cons, List.not_mem_nil, or_false] at he
      rcases he with (he | he) | he
      · exact hpre e he
      · rcases he with he | he | he | he | he <;> subst he <;> rfl
      · exact q3 e he
    · have := hpost.data_after; simpa [ht] using this

theorem truncation_once_under_lock_witness :
    main fd_ofile raceCfg raceEnv 3 0 = some raceRun ∧ raceRun.exit = 0 ∧
      raceRun.sink.isSome = true ∧
      ∃ pre post ret f, ret ≠ -1 ∧ raceRun.input = some f ∧
        (∀ e ∈ pre, e.isTruncate = false) ∧ (∀ e ∈ post, e.isTruncate = false) ∧
        (raceCfg.trunc = true →
          raceRun.trace = pre ++ [Event.read false [], Event.lock true, Event.read true [],
            Event.close ret, Event.truncate true (handed pre) true, Event.unlock true] ++ post ∧
          f.data = []) ∧
        (raceCfg.trunc = false →
          raceRun.trace = pre ++ [Event.read false [], Event.lock true, Event.read true [],
            Event.close ret, Event.unlock true] ++ post ∧
          (∀ e ∈ raceRun.trace, e.isTruncate = false) ∧
          f.data = raceEnv.input ++ f.arrived) :=
  ⟨rfl, rfl, rfl, truncation_once_under_lock fd_ofile raceCfg raceEnv 3 0 raceRun rfl rfl rfl⟩

/-- C6. The size gate.  With a threshold `T > 0`, and `open` and `fstat` on the input
succeeding with size `S`: the run is the declined one (status 0, only `open` and `fstat` in the
trace, the input as it was, no sink and no metadata file) if and only if `S < T`; `main` goes
on to the `open` of the output if and only if `S ≥ T`; and when that `open` and `of_fdopen`
succeed, the copy loop is entered if and only if `S ≥ T`. -/
theorem size_gate {σ : Type} (ofop : Ofile σ) (cfg : Config) (env : Env) (fuel sfuel : Nat)
    (hT : 0 < cfg.size) (hopen : env.openInFails = false) (hstat : env.fstatFails = false) :
    ((env.input.length : Int) < cfg.size ↔
        main ofop cfg env fuel sfuel = some (declined σ env)) ∧
      (cfg.size ≤ (env.input.length : Int) ↔
        ∃ ok, Event.openOut ok ∈ startupTrace (startup ofop cfg env)) ∧
      (env.openOutFails = false →
        (ofop.of_fdopen { env.out with data := [], closed := false } cfg.level).isSome = true →
        (cfg.size ≤ (env.input.length : Int) ↔ ∃ s0, startup ofop cfg env = Sum.inr s0)) := by
  by_cases hlt : (env.input.length : Int) < cfg.size
  · have hst : startup ofop cfg env = Sum.inl (declined σ env) := by
      simp [startup, hopen, hstat, hT, hlt, declined]
    have hmain : main ofop cfg env fuel sfuel = some (declined σ env) := by
      simp [main, hst]
    refine ⟨⟨fun _ => hmain, fun _ => hlt⟩, ⟨fun hge => absurd hlt (not_lt.mpr hge), ?_⟩, ?_⟩
    · rintro ⟨ok, hok⟩
      rw [hst] at hok
      simp [startupTrace, declined] at hok
    · intro _ _
      refine ⟨fun hge => absurd hlt (not_lt.mpr hge), ?_⟩
      rintro ⟨s0, hs0⟩
      rw [hst] at hs0
      exact Sum.noConfusion hs0
  · have hge : cfg.size ≤ (env.input.length : Int) := not_lt.mp hlt
    refine ⟨⟨fun hh => absurd hh hlt, ?_⟩, ⟨fun _ => ?_, fun _ => hge⟩, ?_⟩
    · intro hmain
      exfalso
      rcases main_ok ofop cfg env fuel sfuel _ hmain rfl with hst | ⟨s0, s, _, _, hr⟩
      · exact hlt (startup_inl_zero ofop cfg env _ hst rfl).2.1
      · have : (declined σ env).sink = (finish cfg env s).sink := by rw [← hr]
        unfold finish at this
        simp only [declined] at this
        split at this
        · split at this
          · simp at this
          · split at this <;> simp at this
        · simp at this
    · by_cases h4 : env.openOutFails = true
      · refine ⟨false, ?_⟩
        simp [startup, hopen, hstat, hT, hlt, h4, startupTrace]
      · refine ⟨true, ?_⟩
        simp only [Bool.not_eq_true] at h4
        unfold startup
        simp only [hopen, hstat, hT, hlt, h4, Bool.false_eq_true, if_false, if_true]
        split <;> simp [startupTrace]
    · intro h4 hfd
      refine ⟨fun _ => ?_, fun _ => hge⟩
      obtain ⟨sk, hsk⟩ := Option.isSome_iff_exists.mp hfd
      unfold startup
      simp only [hopen, hstat, hT, hlt, h4, Bool.false_eq_true, if_false, if_true]
      simp only [hsk]
      exact ⟨_, rfl⟩

theorem size_gate_witness :
    0 < gateCfg.size ∧ raceEnv.openInFails = false ∧ raceEnv.fstatFails = false ∧
      (((raceEnv.input.length : Int) < gateCfg.size ↔
          main fd_ofile gateCfg raceEnv 3 0 = some (declined OutFile raceEnv)) ∧
        (gateCfg.size ≤ (raceEnv.input.length : Int) ↔
          ∃ ok, Event.openOut ok ∈ startupTrace (startup fd_ofile gateCfg raceEnv)) ∧
        (raceEnv.openOutFails = false →
          (fd_ofile.of_fdopen { raceEnv.out with data := [], closed := false }
            gateCfg.level).isSome = true →
          (gateCfg.size ≤ (raceEnv.input.length : Int) ↔
            ∃ s0, startup fd_ofile gateCfg raceEnv = Sum.inr s0))) :=
  ⟨by decide, rfl, rfl, size_gate fd_ofile gateCfg raceEnv 3 0 (by decide) rfl rfl⟩

/-! ## The metadata file -/

/-- C8 at its failing input.  The only `write` on the output takes one byte of the three and
returns 1.  The rotator exits with status 0, the output holds `a` alone although `abc` was
handed to `fd_write`, and the input has been truncated. -/
theorem short_write_loses_bytes :
    (main fd_ofile raceCfg shortWriteEnv 2 0).map
      (fun r => (r.exit, r.sink.map (fun f => f.data), handed r.trace,
        r.input.map (fun f => f.data))) =
      some (0, some [97], [97, 98, 99], some []) := by
  decide!

/-! ## The pruner -/

/-- C10 at its failing input.  The directory holds an old regular file followed by an entry on
which `stat` fails.  The loop calls `unlink` on both: for the second entry `sb` still holds
what `stat` stored for the first, so the guard is passed on stale data. -/
theorem stat_failure_still_unlinks :
    (Unlink.prune Unlink.MatchFn.match_mtime (fun _ => none) false 100
        { isReg := false, st_atim := 0, st_mtim := 0, st_ctim := 0 }
        [Unlink.oldLog, Unlink.ghost]).acts =
      [Unlink.Act.unlink "old.log".toList, Unlink.Act.unlink "ghost".toList] ∧
    ¬ Unlink.deletionGuard Unlink.MatchFn.match_mtime (fun _ => none) 100 Unlink.ghost := by
  refine ⟨by decide, ?_⟩
  rintro ⟨_, st, hst, _⟩
  simp [Unlink.ghost] at hst

/-! ## The gzip sink -/

theorem fwrite_le (f : OutFile) (buf : List Byte) : (fwrite f buf).2 ≤ buf.length := by
  unfold fwrite
  split <;> simp [List.length_take]

theorem fwrite_full (f : OutFile) (buf : List Byte) (h : (fwrite f buf).2 = buf.length) :
    (fwrite f buf).1.data = f.data ++ buf := by
  unfold fwrite at h ⊢
  split
  · rfl
  · rfl
  · rename_i n rest hw
    simp only [hw] at h
    simp only
    have : buf.take n = buf := by
      apply List.take_of_length_le
      simp only [List.length_take] at h
      omega
    rw [this]
  · rename_i rest hw
    simp only [hw] at h
    have : buf = [] := List.length_eq_zero.mp h.symm
    simp [this]

/-- The loop of `gz_write` keeps whatever `deflate` and the flush of a full buffer keep, and
ends with no input left. -/
theorem gz_write_loop_rule {κ : Type} (D : Deflater κ) (P : GzStream κ → Prop)
    (hd : ∀ gz, P gz → P (deflate D gz Flush.Z_NO_FLUSH).1)
    (hf : ∀ gz, P gz → gz.avail_out = 0 → (fwrite gz.gz_f gz.gz_buf).2 = BUFSIZE →
      P { gz with gz_f := (fwrite gz.gz_f gz.gz_buf).1, gz_buf := [] })
    (fuel : Nat) : ∀ gz gz', P gz → gz_write_loop D fuel gz = some (gz', true) →
      P gz' ∧ gz'.next_in = [] := by
  induction fuel with
  | zero => intro gz gz' _ h; simp [gz_write_loop] at h
  | succ n ih =>
    intro gz gz' hP h
    unfold gz_write_loop at h
    by_cases hin : gz.avail_in > 0
    · simp only [hin, if_true] at h
      by_cases hout : gz.avail_out = 0
      · simp only [hout, if_true] at h
        by_cases hw : (fwrite gz.gz_f gz.gz_buf).2 = BUFSIZE
        · simp only [hw, ne_eq, not_true_eq_false, if_false, if_true] at h
          split at h
          · simp at h
          · exact ih _ _ (hd _ (hf gz hP hout hw)) h
        · simp [hw] at h
      · simp only [hout, if_false, if_true] at h
        split at h
        · simp at h
        · exact ih _ _ (hd _ hP) h
    · simp only [hin, if_false, Option.some.injEq, Prod.mk.injEq, and_true] at h
      subst h
      refine ⟨hP, ?_⟩
      simp only [GzStream.avail_in, gt_iff_lt, not_lt, Nat.le_zero_eq] at hin
      exact List.length_eq_zero.mp hin

/-- The loop of `gz_close` keeps whatever `deflate` and the flush keep; it ends with an empty
buffer, after a `deflate` that returned `Z_STREAM_END`. -/
theorem gz_close_loop_rule {κ : Type} (D : Deflater κ) (P : GzStream κ → Int → Prop)
    (hd : ∀ gz rc, P gz rc →
      P (deflate D gz Flush.Z_FINISH).1 (deflate D gz Flush.Z_FINISH).2)
    (hf : ∀ gz rc, P gz rc →
      (fwrite gz.gz_f (gz.gz_buf.take (BUFSIZE - gz.avail_out))).2 = BUFSIZE - gz.avail_out →
      P { gz with gz_f := (fwrite gz.gz_f (gz.gz_buf.take (BUFSIZE - gz.avail_out))).1,
                  gz_buf := [] } rc)
    (fuel : Nat) : ∀ gz gz' rc done, P gz rc → (done = true → rc = Z_STREAM_END) →
      gz_close_loop D fuel gz done = some (gz', true) →
      P gz' Z_STREAM_END ∧ gz'.gz_buf = [] := by
  induction fuel with
  | zero => intro gz gz' rc done _ _ h; simp [gz_close_loop] at h
  | succ n ih =>
    intro gz gz' rc done hP hdone h
    unfold gz_close_loop at h
    simp only [] at h
    by_cases hlen : BUFSIZE - gz.avail_out > 0
    · simp only [hlen, if_true] at h
      by_cases hw : (fwrite gz.gz_f (gz.gz_buf.take (BUFSIZE - gz.avail_out))).2 =
          BUFSIZE - gz.avail_out
      · simp only [hw, ne_eq, not_true_eq_false, if_false, if_true] at h
        have hP1 := hf gz rc hP hw
        cases done with
        | true =>
          simp only [if_true, Option.some.injEq, Prod.mk.injEq, and_true] at h
          subst h
          rw [hdone rfl] at hP1
          exact ⟨hP1, rfl⟩
        | false =>
          simp only [Bool.false_eq_true, if_false] at h
          split at h
          · exact ih _ _ _ false (hd _ _ hP1) (fun hh => by simp at hh) h
          · split at h
            · rename_i hrc
              exact ih _ _ _ true (hd _ _ hP1) (fun _ => hrc) h
            · simp at h
      · simp [hw] at h
    · simp only [hlen, if_false, if_true] at h
      have hbuf : gz.gz_buf = [] := by
        simp only [GzStream.avail_out, gt_iff_lt, not_lt, Nat.le_zero_eq] at hlen
        apply List.length_eq_zero.mp
        have : BUFSIZE = 65536 := rfl
        omega
      cases done with
      | true =>
        simp only [if_true, Option.some.injEq, Prod.mk.injEq, and_true] at h
        subst h
        rw [hdone rfl] at hP
        exact ⟨hP, hbuf⟩
      | false =>
        simp only [Bool.false_eq_true, if_false] at h
        split at h
        · exact ih _ _ _ false (hd _ _ hP) (fun hh => by simp at hh) h
        · split at h
          · rename_i hrc
            exact ih _ _ _ true (hd _ _ hP) (fun _ => hrc) h
          · simp at h

theorem crcBit_lt (c : Nat) (h : c < 2 ^ 32) : crcBit c < 2 ^ 32 := by
  unfold crcBit
  split
  · apply Nat.xor_lt_two_pow
    · omega
    · decide
  · omega

theorem crcByte_lt (c : Nat) (b : Byte) (h : c < 2 ^ 32) : crcByte c b < 2 ^ 32 := by
  unfold crcByte
  have h0 : c ^^^ (b % 256) < 2 ^ 32 := by
    apply Nat.xor_lt_two_pow h
    have : b % 256 < 256 := Nat.mod_lt _ (by decide)
    omega
  exact crcBit_lt _ (crcBit_lt _ (crcBit_lt _ (crcBit_lt _ (crcBit_lt _ (crcBit_lt _
    (crcBit_lt _ (crcBit_lt _ h0)))))))

theorem crcFold_lt (buf : List Byte) : ∀ c, c < 2 ^ 32 → buf.foldl crcByte c < 2 ^ 32 := by
  induction buf with
  | nil => intro c h; exact h
  | cons b bs ih => intro c h; exact ih _ (crcByte_lt c b h)

theorem xor_mask_mask (x : Nat) : (x ^^^ 0xffffffff) ^^^ 0xffffffff = x := by
  rw [Nat.xor_assoc, Nat.xor_self, Nat.xor_zero]

theorem xor_mask_lt (x : Nat) (h : x < 2 ^ 32) : x ^^^ 0xffffffff < 2 ^ 32 :=
  Nat.xor_lt_two_pow h (by decide)

/-- A call of `crc32` resumes where the previous one stopped. -/
theorem crc32_append (c : Nat) (a b : List Byte) : crc32 (crc32 c a) b = crc32 c (a ++ b) := by
  unfold crc32
  have h0 : u32 c ^^^ 0xffffffff < 2 ^ 32 :=
    xor_mask_lt _ (Nat.mod_lt _ (by decide))
  have h1 := crcFold_lt a _ h0
  have h2 : u32 (List.foldl crcByte (u32 c ^^^ 0xffffffff) a ^^^ 0xffffffff) =
      List.foldl crcByte (u32 c ^^^ 0xffffffff) a ^^^ 0xffffffff :=
    Nat.mod_eq_of_lt (xor_mask_lt _ h1)
  rw [h2, xor_mask_mask, List.foldl_append]

theorem crc32_lt (c : Nat) (a : List Byte) : crc32 c a < 2 ^ 32 := by
  unfold crc32
  exact xor_mask_lt _ (crcFold_lt a _ (xor_mask_lt _ (Nat.mod_lt _ (by decide))))

theorem deflate_GzInv {κ : Type} (D : Deflater κ) (base input : List Byte) (gz : GzStream κ)
    (flush : Flush) (h : GzInv base input gz) : GzInv base input (deflate D gz flush).1 := by
  unfold deflate
  simp only []
  refine ⟨?_, ?_, ?_, ?_⟩
  · rw [← List.append_assoc, h.file_eq, List.append_assoc]
  · have := h.buf_le
    simp only [List.length_append, List.length_take, GzStream.avail_out]
    omega
  · have := h.total_eq
    simp only [List.length_take, List.length_drop] at this ⊢
    rw [← this]
    have hmin : min (D.run gz.zstate gz.next_in gz.avail_out flush).consumed gz.next_in.length +
        (gz.next_in.length - (D.run gz.zstate gz.next_in gz.avail_out flush).consumed) =
        gz.next_in.length := by omega
    rw [Nat.add_mod, Nat.mod_mod, ← Nat.add_mod, Nat.add_assoc, hmin]
  · exact Nat.mod_lt _ (by decide)

theorem flush_full_GzInv {κ : Type} (base input : List Byte) (gz : GzStream κ)
    (h : GzInv base input gz) (hout : gz.avail_out = 0)
    (hw : (fwrite gz.gz_f gz.gz_buf).2 = BUFSIZE) :
    GzInv base input { gz with gz_f := (fwrite gz.gz_f gz.gz_buf).1, gz_buf := [] } := by
  have hlen : gz.gz_buf.length = BUFSIZE := by
    have := h.buf_le
    simp only [GzStream.avail_out] at hout
    omega
  refine ⟨?_, by simp, h.total_eq, h.total_lt⟩
  simp only [List.append_nil]
  rw [fwrite_full _ _ (by rw [hw, hlen])]
  exact h.file_eq

theorem flush_some_GzInv {κ : Type} (base input : List Byte) (gz : GzStream κ)
    (h : GzInv base input gz)
    (hw : (fwrite gz.gz_f (gz.gz_buf.take (BUFSIZE - gz.avail_out))).2 =
      BUFSIZE - gz.avail_out) :
    GzInv base input
      { gz with gz_f := (fwrite gz.gz_f (gz.gz_buf.take (BUFSIZE - gz.avail_out))).1,
                gz_buf := [] } := by
  have hlen : BUFSIZE - gz.avail_out = gz.gz_buf.length := by
    have := h.buf_le
    simp only [GzStream.avail_out]
    omega
  rw [hlen, List.take_length] at hw ⊢
  refine ⟨?_, by simp, h.total_eq, h.total_lt⟩
  simp only [List.append_nil]
  rw [fwrite_full _ _ hw]
  exact h.file_eq

theorem gz_dopen_spec {κ : Type} (D : Deflater κ) (fd : OutFile) (level : Int)
    (gz : GzStream κ) (h : gz_dopen D fd level = some gz) :
    GzIdle fd.data [] gz ∧ gz.emitted = [] ∧ (D.init level).1 = Z_OK ∧
      gz.zstate = (D.init level).2 := by
  unfold gz_dopen at h
  simp only [] at h
  split at h
  · simp at h
  · split at h
    · rename_i hinit
      split at h
      · simp at h
      · rename_i hw
        simp only [Option.some.injEq] at h
        subst h
        have hfull : (fwrite fd gzHdr).2 = gzHdr.length := by
          have := fwrite_le fd gzHdr
          omega
        refine ⟨⟨⟨?_, by simp, by simp, by simp⟩, rfl, rfl⟩, rfl, hinit, rfl⟩
        simp only [List.append_nil]
        exact fwrite_full _ _ hfull
    · simp at h

theorem gz_write_spec {κ : Type} (D : Deflater κ) (fuel : Nat) (base input buf : List Byte)
    (gz gz' : GzStream κ) (ret : Int) (hid : GzIdle base input gz)
    (h : gz_write D fuel gz buf = some (gz', ret)) (hret : ret ≠ -1) :
    GzIdle base (input ++ buf) gz' ∧ ret = buf.length := by
  unfold gz_write at h
  split at h
  · simp at h
  · simp only [Option.some.injEq, Prod.mk.injEq] at h
    exact absurd h.2.symm hret
  · rename_i gz1 hl
    simp only [Option.some.injEq, Prod.mk.injEq] at h
    obtain ⟨hg, hr⟩ := h
    have h0 : GzInv base (input ++ buf) { gz with next_in := buf } := by
      refine ⟨hid.inv.file_eq, hid.inv.buf_le, ?_, hid.inv.total_lt⟩
      have := hid.inv.total_eq
      rw [hid.idle] at this
      simp only [List.length_nil, Nat.add_zero, List.length_append] at this ⊢
      rw [Nat.add_mod, this, ← Nat.add_mod]
    have hP := gz_write_loop_rule D
      (fun g => GzInv base (input ++ buf) g ∧ g.gz_crc = gz.gz_crc)
      (fun g hg => ⟨deflate_GzInv D _ _ g _ hg.1, hg.2⟩)
      (fun g hg hout hw => ⟨flush_full_GzInv _ _ g hg.1 hout hw, hg.2⟩)
      fuel _ gz1 ⟨h0, rfl⟩ hl
    obtain ⟨⟨hinv, hcrc⟩, hnil⟩ := hP
    subst hg
    refine ⟨⟨⟨hinv.file_eq, hinv.buf_le, hinv.total_eq, hinv.total_lt⟩, hnil, ?_⟩, hr.symm⟩
    simp only
    rw [hcrc, hid.crc, crc32_append]

theorem gz_writes_spec {κ : Type} (D : Deflater κ) (fuel : Nat) (base : List Byte)
    (chunks : List (List Byte)) : ∀ (input : List Byte) (gz gz' : GzStream κ),
      GzIdle base input gz → gz_writes D fuel gz chunks = some (gz', true) →
      GzIdle base (input ++ chunks.flatten) gz' := by
  induction chunks with
  | nil =>
    intro input gz gz' hid h
    simp only [gz_writes, Option.some.injEq, Prod.mk.injEq, and_true] at h
    subst h
    simpa using hid
  | cons c cs ih =>
    intro input gz gz' hid h
    unfold gz_writes at h
    split at h
    · simp at h
    · rename_i gz1 ret hw
      by_cases hret : ret = -1
      · simp [hret] at h
      · simp only [hret, if_false] at h
        have := ih _ _ _ (gz_write_spec D fuel base input c gz gz1 ret hid hw hret).1 h
        simpa [List.append_assoc] using this

theorem le32_length (w : Nat) : (le32 w).length = 4 := rfl

theorem gz_close_spec {κ : Type} (D : Deflater κ) (fuel : Nat) (base input : List Byte)
    (gz gz' : GzStream κ) (hid : GzIdle base input gz)
    (h : gz_close D fuel gz = some (gz', 0)) :
    gz'.gz_f.data = base ++ gzHdr ++ gz'.emitted ++
      (le32 (crc32 0 input) ++ le32 (input.length % 2 ^ 32)) := by
  unfold gz_close at h
  split at h
  · simp at h
  · simp at h
  · rename_i gz1 hl
    have hP := gz_close_loop_rule D
      (fun g _ => GzInv base input g ∧ g.next_in = [] ∧ g.gz_crc = crc32 0 input)
      (fun g _ hg => ⟨deflate_GzInv D _ _ g _ hg.1, by simp [deflate, hg.2.1], hg.2.2⟩)
      (fun g _ hg hw => ⟨flush_some_GzInv _ _ g hg.1 hw, hg.2.1, hg.2.2⟩)
      fuel gz gz1 0 false ⟨hid.inv, hid.idle, hid.crc⟩ (fun hh => by simp at hh) hl
    obtain ⟨⟨hinv, hnil, hcrc⟩, hbuf⟩ := hP
    have hfile : gz1.gz_f.data = base ++ gzHdr ++ gz1.emitted := by
      have := hinv.file_eq
      rw [hbuf, List.append_nil] at this
      exact this
    have htot : u32 gz1.total_in = input.length % 2 ^ 32 := by
      have := hinv.total_eq
      rw [hnil] at this
      simp only [List.length_nil, Nat.add_zero] at this
      unfold u32
      have h1 : gz1.total_in % 2 ^ 64 % 2 ^ 32 = gz1.total_in % 2 ^ 32 :=
        Nat.mod_mod_of_dvd _ (by decide)
      have h2 : input.length % 2 ^ 64 % 2 ^ 32 = input.length % 2 ^ 32 :=
        Nat.mod_mod_of_dvd _ (by decide)
      rw [← h1, this, h2]
    have hcrc' : u32 gz1.gz_crc = crc32 0 input := by
      rw [hcrc]; exact Nat.mod_eq_of_lt (crc32_lt _ _)
    simp only [] at h
    by_cases hw1 : (fwrite gz1.gz_f (le32 (u32 gz1.gz_crc))).2 = 4
    · simp only [hw1, ne_eq, not_true_eq_false, if_false] at h
      by_cases hw2 : (fwrite (fwrite gz1.gz_f (le32 (u32 gz1.gz_crc))).1
          (le32 (u32 gz1.total_in))).2 = 4
      · simp only [hw2, ne_eq, not_true_eq_false, if_false] at h
        split at h
        · simp at h
        · split at h
          · simp at h
          · simp only [Option.some.injEq, Prod.mk.injEq, and_true] at h
            subst h
            simp only [sysClose]
            rw [fwrite_full _ _ (by rw [hw2, le32_length]),
              fwrite_full _ _ (by rw [hw1, le32_length]), hfile, hcrc', htot]
            simp [List.append_assoc]
      · simp [hw2] at h
    · simp [hw1] at h

theorem gzRun_some {κ : Type} (D : Deflater κ) (fuel : Nat) (fd : OutFile) (level : Int)
    (chunks : List (List Byte)) (gz : GzStream κ) (h : gzRun D fuel fd level chunks = some gz) :
    ∃ gz0 gz1, gz_dopen D fd level = some gz0 ∧ gz_writes D fuel gz0 chunks = some (gz1, true) ∧
      gz_close D fuel gz1 = some (gz, 0) := by
  unfold gzRun at h
  split at h
  · simp at h
  · rename_i gz0 h0
    split at h
    · rename_i gz1 h1
      split at h
      · rename_i gz2 ret h2
        by_cases hret : ret = 0
        · simp only [hret, if_true, Option.some.injEq] at h
          subst h
          subst hret
          exact ⟨gz0, gz1, h0, h1, h2⟩
        · simp [hret] at h
      · simp at h
    · simp at h

/-- The file after a whole session on the gzip sink. -/
theorem gzRun_file {κ : Type} (D : Deflater κ) (fuel : Nat) (fd : OutFile) (level : Int)
    (chunks : List (List Byte)) (gz : GzStream κ) (h : gzRun D fuel fd level chunks = some gz) :
    gz.gz_f.data = fd.data ++ gzHdr ++ gz.emitted ++
      (le32 (crc32 0 chunks.flatten) ++ le32 (chunks.flatten.length % 2 ^ 32)) := by
  obtain ⟨gz0, gz1, h0, h1, h2⟩ := gzRun_some D fuel fd level chunks gz h
  have i0 := (gz_dopen_spec D fd level gz0 h0).1
  have i1 := gz_writes_spec D fuel fd.data chunks [] gz0 gz1 i0 h1
  simp only [List.nil_append] at i1
  exact gz_close_spec D fuel fd.data chunks.flatten gz1 gz i1 h2

/-- C4. Gzip framing.  After a session on the gzip sink in which `gz_dopen`, every `gz_write`
and `gz_close` succeeded, whatever the compressor, the chunks (none included), the level and
the fuel: the bytes added to the file are the ten header bytes `1f 8b 08 00 00 00 00 00 00 03`,
then every byte the compressor stored through `next_out` over all calls of `deflate`, in
order and once each, then eight trailer bytes. -/
theorem gzip_framing {κ : Type} (D : Deflater κ) (fuel : Nat) (fd : OutFile) (level : Int)
    (chunks : List (List Byte)) (gz : GzStream κ) (h : gzRun D fuel fd level chunks = some gz) :
    ∃ T, T.length = 8 ∧
      gz.gz_f.data = fd.data ++ [0x1f, 0x8b, 0x08, 0, 0, 0, 0, 0, 0, 0x03] ++ gz.emitted ++ T ∧
      gz.gz_buf = [] := by
  obtain ⟨gz0, gz1, h0, h1, h2⟩ := gzRun_some D fuel fd level chunks gz h
  refine ⟨le32 (crc32 0 chunks.flatten) ++ le32 (chunks.flatten.length % 2 ^ 32), rfl,
    gzRun_file D fuel fd level chunks gz h, ?_⟩
  unfold gz_close at h2
  split at h2
  · simp at h2
  · simp at h2
  · rename_i gz2 hl
    have hbuf := (gz_close_loop_rule D (fun _ _ => True) (fun _ _ _ => trivial)
      (fun _ _ _ _ => trivial) fuel gz1 gz2 0 false trivial (fun hh => by simp at hh) hl).2
    simp only [] at h2
    split at h2
    · simp at h2
    · split at h2
      · simp at h2
      · split at h2
        · simp at h2
        · split at h2
          · simp at h2
          · simp only [Option.some.injEq, Prod.mk.injEq, and_true] at h2
            rw [← h2]
            exact hbuf

theorem gzip_framing_witness :
    gzRun storedDeflater 4 plainOut 6 [[97, 98], [99]] = some storedSession ∧
      ∃ T, T.length = 8 ∧
        storedSession.gz_f.data =
          plainOut.data ++ [0x1f, 0x8b, 0x08, 0, 0, 0, 0, 0, 0, 0x03] ++
            storedSession.emitted ++ T ∧
        storedSession.gz_buf = [] :=
  ⟨by decide!, gzip_framing storedDeflater 4 plainOut 6 [[97, 98], [99]] storedSession
    (by decide!)⟩

theorem nextEv_sum (evs : List Ev) :
    ((nextEv evs).2.map (fun ev => ev.app.length + 1)).sum + (nextEv evs).1.app.length ≤
      (evs.map (fun ev => ev.app.length + 1)).sum := by
  cases evs with
  | nil => simp [nextEv]
  | cons e rest => simp [nextEv]; omega

theorem arrive_len (f : InFile) (e : Ev) :
    (f.arrive e).data.length ≤ f.data.length + e.app.length ∧ (f.arrive e).pos = f.pos := by
  unfold InFile.arrive
  split
  · exact ⟨by omega, rfl⟩
  · exact ⟨by simp, rfl⟩

theorem sysRead_slack (f : InFile) (evs : List Ev) (c : List Byte)
    (h : (sysRead f (nextEv evs).1).2 = some c) :
    slackOf (sysRead f (nextEv evs).1).1 (nextEv evs).2 + c.length ≤ slackOf f evs := by
  have h1 := nextEv_sum evs
  have h2 := arrive_len f (nextEv evs).1
  unfold sysRead at h ⊢
  simp only [] at h ⊢
  split at h
  · simp at h
  · rename_i hf
    simp only [hf, Bool.false_eq_true, if_false, Option.some.injEq] at h ⊢
    have hc : c.length ≤ (f.arrive (nextEv evs).1).data.length - (f.arrive (nextEv evs).1).pos := by
      rw [← h]; simp
    simp only [slackOf, h]
    omega

theorem sysLock_slack (f : InFile) (evs : List Ev) :
    slackOf (sysLock f (nextEv evs).1).1 (nextEv evs).2 ≤ slackOf f evs := by
  have h1 := nextEv_sum evs
  have h2 := arrive_len f (nextEv evs).1
  unfold sysLock
  simp only []
  split <;> simp only [slackOf] <;> omega

theorem sysUnlock_slack (f : InFile) (evs : List Ev) :
    slackOf (sysUnlock f (nextEv evs).1).1 (nextEv evs).2 ≤ slackOf f evs := by
  have h1 := nextEv_sum evs
  have h2 := arrive_len f (nextEv evs).1
  unfold sysUnlock
  simp only []
  split <;> simp only [slackOf] <;> omega

theorem settle_more_slack {σ : Type} (ofop : Ofile σ) (cfg : Config) (sfuel : Nat)
    (s s' : Loop σ) (chunk c : List Byte)
    (h : settle ofop cfg sfuel s chunk = some (s', Next.more c)) :
    s'.slack ≤ s.slack ∧ c = chunk ∧ c ≠ [] := by
  obtain ⟨hc, hne, _, hs⟩ := settle_more ofop cfg sfuel s s' chunk c h
  refine ⟨?_, hc, hc ▸ hne⟩
  rw [hs]
  exact sysUnlock_slack s.input s.evs

theorem confirm_more_slack {σ : Type} (ofop : Ofile σ) (cfg : Config) (sfuel : Nat)
    (s s' : Loop σ) (c : List Byte) (h : confirm ofop cfg sfuel s = some (s', Next.more c)) :
    s'.slack + c.length ≤ s.slack ∧ c ≠ [] := by
  unfold confirm at h
  simp only [] at h
  split at h
  · split at h
    · simp at h
    · rename_i chunk hr
      obtain ⟨h1, h2, h3⟩ := settle_more_slack _ _ _ _ _ _ _ h
      subst h2
      refine ⟨?_, h3⟩
      have a1 := sysLock_slack s.input s.evs
      have a2 := sysRead_slack (sysLock s.input (nextEv s.evs).1).1 (nextEv s.evs).2 c hr
      simp only [Loop.slack] at h1 ⊢
      omega
  · simp at h

theorem body_cont_slack {σ : Type} (ofop : Ofile σ) (cfg : Config) (sfuel : Nat)
    (s s' : Loop σ) (h : body ofop cfg sfuel s = some (s', Flow.cont)) : s'.slack < s.slack := by
  unfold body at h
  simp only [] at h
  split at h
  · simp at h
  · rename_i chunk hr
    have a1 := sysRead_slack s.input s.evs chunk hr
    split at h
    · simp at h
    · simp at h
    · simp at h
    · rename_i s2 c hg
      split at h
      · simp at h
      · simp at h
      · rename_i s3 hf
        simp only [Option.some.injEq, Prod.mk.injEq, and_true] at h
        subst h
        obtain ⟨of2, ret, _, _, hs3⟩ := feed_eq _ _ _ _ _ _ _ hf
        have e3 : s3.slack = s2.slack := by rw [hs3]; rfl
        by_cases hz : chunk.length = 0
        · simp only [hz, if_true] at hg
          obtain ⟨b1, b2⟩ := confirm_more_slack _ _ _ _ _ _ hg
          have : 0 < c.length := List.length_pos.mpr b2
          simp only [Loop.slack] at b1 e3 ⊢
          omega
        · simp only [hz, if_false, Option.some.injEq, Prod.mk.injEq, Next.more.injEq] at hg
          obtain ⟨hs2, _⟩ := hg
          rw [e3, ← hs2]
          simp only [Loop.slack]
          omega

theorem feed_isSome {σ : Type} (ofop : Ofile σ) (cfg : Config) (sfuel : Nat) (s : Loop σ)
    (c : List Byte) (ht : ofop.Total sfuel) : (feed ofop cfg sfuel s c).isSome = true := by
  unfold feed
  simp only []
  have := ht.1 s.of c
  split
  · rename_i hn
    rw [hn] at this
    simp at this
  · rfl

theorem settle_isSome {σ : Type} (ofop : Ofile σ) (cfg : Config) (sfuel : Nat) (s : Loop σ)
    (c : List Byte) (ht : ofop.Total sfuel) : (settle ofop cfg sfuel s c).isSome = true := by
  unfold settle
  simp only []
  have := ht.2 s.of
  by_cases hc : c.length = 0
  · simp only [hc, if_true]
    cases hcl : ofop.of_close sfuel s.of with
    | none => rw [hcl] at this; simp at this
    | some p =>
      obtain ⟨of2, ret⟩ := p
      simp only []
      by_cases hret : ret = -1
      · simp [hret]
      · simp only [hret, if_false]
        cases cfg.trunc
        · simp only [Bool.false_eq_true, if_false]
          split <;> rfl
        · simp only [if_true]
          cases (sysTruncate s.input (nextEv s.evs).1).2
          · rfl
          · simp only []
            split <;> rfl
  · simp only [hc, if_false]
    split <;> rfl

theorem confirm_isSome {σ : Type} (ofop : Ofile σ) (cfg : Config) (sfuel : Nat) (s : Loop σ)
    (ht : ofop.Total sfuel) : (confirm ofop cfg sfuel s).isSome = true := by
  unfold confirm
  simp only []
  split
  · split
    · rfl
    · exact settle_isSome _ _ _ _ _ ht
  · rfl

theorem body_isSome {σ : Type} (ofop : Ofile σ) (cfg : Config) (sfuel : Nat) (s : Loop σ)
    (ht : ofop.Total sfuel) : (body ofop cfg sfuel s).isSome = true := by
  unfold body
  simp only []
  split
  · rfl
  · rename_i chunk _
    split
    · rename_i hg
      split at hg
      · have := confirm_isSome ofop cfg sfuel
          { s with input := (sysRead s.input (nextEv s.evs).1).1, evs := (nextEv s.evs).2,
                   trace := s.trace ++ [Event.read s.input.locked chunk] } ht
        rw [hg] at this
        simp at this
      · simp at hg
    · rfl
    · rfl
    · rename_i s2 c _
      have := feed_isSome ofop cfg sfuel s2 c ht
      split
      · rename_i hn
        rw [hn] at this
        simp at this
      · rfl
      · rfl

theorem copyLoop_isSome {σ : Type} (ofop : Ofile σ) (cfg : Config) (sfuel : Nat)
    (ht : ofop.Total sfuel) (fuel : Nat) :
    ∀ s : Loop σ, s.slack < fuel → (copyLoop ofop cfg sfuel fuel s).isSome = true := by
  induction fuel with
  | zero => intro s h; omega
  | succ n ih =>
    intro s h
    unfold copyLoop
    have hb := body_isSome ofop cfg sfuel s ht
    split
    · rename_i hn
      rw [hn] at hb
      simp at hb
    · rfl
    · rfl
    · rename_i s1 hc
      have := body_cont_slack ofop cfg sfuel s s1 hc
      exact ih s1 (by omega)

/-- With a sink whose calls return, the rotator ends within a number of iterations of the copy
loop that is read off the script and the size of the input. -/
theorem main_isSome {σ : Type} (ofop : Ofile σ) (cfg : Config) (env : Env) (fuel sfuel : Nat)
    (ht : ofop.Total sfuel)
    (hfuel : (env.evs.map (fun ev => ev.app.length + 1)).sum + env.input.length < fuel) :
    (main ofop cfg env fuel sfuel).isSome = true := by
  unfold main
  split
  · rfl
  · rename_i s0 hst
    obtain ⟨_, _, _, sk, _, hs0⟩ := startup_inr _ _ _ _ hst
    have hs : s0.slack < fuel := by
      rw [hs0]
      simpa [Loop.slack, slackOf] using hfuel
    have := copyLoop_isSome ofop cfg sfuel ht fuel s0 hs
    split
    · rename_i hn
      rw [hn] at this
      simp at this
    · rfl
    · rfl

theorem fd_ofile_total (sfuel : Nat) : fd_ofile.Total sfuel :=
  ⟨fun _ _ => rfl, fun _ => rfl⟩

/-- C1. Concurrent-append safety of the copy loop.  On every run that goes through the copy
loop and exits with status 0, whatever the writer appended and whenever: the trace ends with a
zero-length `read`, a successful `flock(LOCK_EX)` and a second zero-length `read` taken under
the lock, with no `read` and no `of_write` after them; the chunks handed to `of_write` are
exactly the non-empty chunks returned by `read`, each once and in order; and the bytes handed
on are the bytes the file held when it was opened followed by every byte appended since,
those appended between the first zero-length `read` and the lock included.  Moreover, with a
sink whose calls return, the run does end, within a number of iterations given by the script
and the size of the input. -/
theorem copy_loop_hands_on_every_byte {σ : Type} (ofop : Ofile σ) (cfg : Config) (env : Env)
    (fuel sfuel : Nat) :
    (∀ r : Result σ, main ofop cfg env fuel sfuel = some r → r.exit = 0 →
      r.sink.isSome = true →
      ∃ pre post f,
        r.trace = pre ++ [Event.read false [], Event.lock true, Event.read true []] ++ post ∧
        readsOf post = [] ∧ writesOf post = [] ∧
        writesOf r.trace = (readsOf r.trace).filter (fun c => !c.isEmpty) ∧
        handed r.trace = (readsOf r.trace).flatten ∧
        r.input = some f ∧ handed r.trace = env.input ++ f.arrived) ∧
    (ofop.Total sfuel →
      (env.evs.map (fun ev => ev.app.length + 1)).sum + env.input.length < fuel →
      (main ofop cfg env fuel sfuel).isSome = true) :=
  ⟨fun r h hexit hrot => copy_loop_post ofop cfg env fuel sfuel r h hexit hrot,
    fun ht hfuel => main_isSome ofop cfg env fuel sfuel ht hfuel⟩

theorem copy_loop_hands_on_every_byte_witness :
    main fd_ofile raceCfg raceEnv 9 0 = some raceRun ∧ raceRun.exit = 0 ∧
      raceRun.sink.isSome = true ∧ fd_ofile.Total 0 ∧
      (raceEnv.evs.map (fun ev => ev.app.length + 1)).sum + raceEnv.input.length < 9 ∧
      (∃ pre post f,
        raceRun.trace =
          pre ++ [Event.read false [], Event.lock true, Event.read true []] ++ post ∧
        readsOf post = [] ∧ writesOf post = [] ∧
        writesOf raceRun.trace = (readsOf raceRun.trace).filter (fun c => !c.isEmpty) ∧
        handed raceRun.trace = (readsOf raceRun.trace).flatten ∧
        raceRun.input = some f ∧ handed raceRun.trace = raceEnv.input ++ f.arrived) ∧
      (main fd_ofile raceCfg raceEnv 9 0).isSome = true :=
  ⟨rfl, rfl, rfl, fd_ofile_total 0, by decide,
    (copy_loop_hands_on_every_byte fd_ofile raceCfg raceEnv 9 0).1 raceRun rfl rfl rfl,
    (copy_loop_hands_on_every_byte fd_ofile raceCfg raceEnv 9 0).2 (fd_ofile_total 0)
      (by decide)⟩

/-! ## What the raw sink holds -/

@[simp] theorem writeLog_append (a b : List Event) :
    writeLog (a ++ b) = writeLog a ++ writeLog b := by
  simp [writeLog]

/-- An iteration that goes on has made one call of `of_write` on the sink it started with. -/
theorem body_cont_sink {σ : Type} (ofop : Ofile σ) (cfg : Config) (sfuel : Nat)
    (s s' : Loop σ) (h : body ofop cfg sfuel s = some (s', Flow.cont)) :
    ∃ c ret, ofop.of_write sfuel s.of c = some (s'.of, ret) ∧ ret ≠ -1 ∧
      writeLog s'.trace = writeLog s.trace ++ [(c, ret)] := by
  unfold body at h
  simp only [] at h
  split at h
  · simp at h
  · rename_i chunk hr
    split at h
    · simp at h
    · simp at h
    · simp at h
    · rename_i s2 c hg
      split at h
      · simp at h
      · simp at h
      · rename_i s3 hf
        simp only [Option.some.injEq, Prod.mk.injEq, and_true] at h
        subst h
        obtain ⟨of2, ret, hw, hx, hs3⟩ := feed_eq _ _ _ _ _ _ _ hf
        have hret : ret ≠ -1 := by
          intro hh; simp [hh] at hx
        have key : s2.of = s.of ∧ writeLog s2.trace = writeLog s.trace := by
          by_cases hz : chunk.length = 0
          · simp only [hz, if_true] at hg
            obtain ⟨f1, f2, f3, e1, e2, e3, evs, _, _, _, _, hs2⟩ := confirm_more _ _ _ _ _ _ hg
            rw [hs2]
            simp [writeLog, Event.writeCall]
          · simp only [hz, if_false, Option.some.injEq, Prod.mk.injEq, Next.more.injEq] at hg
            rw [← hg.1]
            simp [writeLog, Event.writeCall]
        refine ⟨c, ret, ?_, hret, ?_⟩
        · rw [← key.1, hw, hs3]
        · rw [hs3]
          show writeLog (s2.trace ++ [Event.write c ret]) = _
          rw [writeLog_append, key.2]
          rfl

/-- The last iteration has made one call of `of_close` on the sink it started with, and no
call of `of_write`. -/
theorem body_brk_sink {σ : Type} (ofop : Ofile σ) (cfg : Config) (sfuel : Nat)
    (s s' : Loop σ) (h : body ofop cfg sfuel s = some (s', Flow.brk)) :
    ∃ ret, ofop.of_close sfuel s.of = some (s'.of, ret) ∧ ret ≠ -1 ∧
      writeLog s'.trace = writeLog s.trace := by
  unfold body at h
  simp only [] at h
  split at h
  · simp at h
  · rename_i chunk hr
    split at h
    · simp at h
    · simp at h
    · rename_i s2 hg
      simp only [Option.some.injEq, Prod.mk.injEq, and_true] at h
      subst h
      by_cases hz : chunk.length = 0
      · simp only [hz, if_true] at hg
        obtain ⟨f1, f2, f3, e1, e2, of2, ret, evs, tail, _, _, hcl, hret, htr, hntr, hs2⟩ :=
          confirm_done _ _ _ _ _ hg
        refine ⟨ret, ?_, hret, ?_⟩
        · rw [hs2]; exact hcl
        · rw [hs2]
          have ht : writeLog tail = [] := by
            cases hc : cfg.trunc with
            | true =>
              obtain ⟨_, _, _, _, _, e⟩ := htr hc
              rw [e]; rfl
            | false =>
              obtain ⟨_, _, e⟩ := hntr hc
              rw [e]; rfl
          simp only [writeLog_append, ht, List.append_nil]
          simp [writeLog, Event.writeCall]
      · simp [hz] at hg
    · split at h <;> simp at h

/-- The sink after the copy loop, for any property of a sink and a log of writes that every
successful `of_write` extends and `of_close` turns into a property of the closed sink. -/
theorem copyLoop_sink_rule {σ : Type} (ofop : Ofile σ) (cfg : Config) (sfuel : Nat)
    (Q R : σ → List (List Byte × Int) → Prop)
    (hw : ∀ st st' log c ret, Q st log → ofop.of_write sfuel st c = some (st', ret) →
      ret ≠ -1 → Q st' (log ++ [(c, ret)]))
    (hc : ∀ st st' log ret, Q st log → ofop.of_close sfuel st = some (st', ret) →
      ret ≠ -1 → R st' log)
    (fuel : Nat) : ∀ s s' : Loop σ, Q s.of (writeLog s.trace) →
      copyLoop ofop cfg sfuel fuel s = some (s', none) → R s'.of (writeLog s'.trace) := by
  induction fuel with
  | zero => intro s s' _ h; simp [copyLoop] at h
  | succ n ih =>
    intro s s' hQ h
    unfold copyLoop at h
    split at h
    · simp at h
    · simp at h
    · rename_i s1 hb
      simp only [Option.some.injEq, Prod.mk.injEq, and_true] at h
      subst h
      obtain ⟨ret, hcl, hret, hlog⟩ := body_brk_sink _ _ _ _ _ hb
      rw [hlog]
      exact hc _ _ _ ret hQ hcl hret
    · rename_i s1 hb
      obtain ⟨c, ret, hwr, hret, hlog⟩ := body_cont_sink _ _ _ _ _ hb
      exact ih s1 s' (by rw [hlog]; exact hw _ _ _ c ret hQ hwr hret) h

theorem sysWrite_accepted (f : OutFile) (c : List Byte) :
    (sysWrite f c).1.data = f.data ++ c.take (sysWrite f c).2.toNat := by
  unfold sysWrite
  split
  · simp
  · simp
  · simp only [Int.toNat_ofNat, List.length_take]
    rename_i n _ _
    congr 1
    by_cases hn : n ≤ c.length
    · rw [Nat.min_eq_left hn]
    · rw [Nat.min_eq_right (by omega), List.take_of_length_le (by omega : c.length ≤ n),
        List.take_of_length_le (Nat.le_refl _)]
  · simp

theorem accepted_full (log : List (List Byte × Int))
    (h : ∀ p ∈ log, p.2 = (p.1.length : Int)) : accepted log = (log.map (fun p => p.1)).flatten := by
  induction log with
  | nil => rfl
  | cons p l ih =>
    have hp := h p (List.mem_cons_self _ _)
    have := ih (fun q hq => h q (List.mem_cons_of_mem _ hq))
    simp only [accepted, List.flatMap_cons, List.map_cons, List.flatten_cons] at this ⊢
    rw [this, hp]
    simp

theorem writesOf_eq_writeLog (tr : List Event) :
    writesOf tr = (writeLog tr).map (fun p => p.1) := by
  induction tr with
  | nil => rfl
  | cons e l ih =>
    cases e <;> simp_all [writesOf, writeLog, Event.writeChunk, Event.writeCall]

/-- The raw sink after a run that exits with status 0: the output file holds exactly the bytes
that the calls of `write(2)` took; so it holds every byte handed to `fd_write` when each call
returned the length of its chunk. -/
theorem raw_sink_output (cfg : Config) (env : Env) (fuel sfuel : Nat) (r : Result OutFile)
    (h : main fd_ofile cfg env fuel sfuel = some r) (hexit : r.exit = 0) (f : OutFile)
    (hsink : r.sink = some f) :
    f.data = accepted (writeLog r.trace) ∧
      ((∀ p ∈ writeLog r.trace, p.2 = (p.1.length : Int)) → f.data = handed r.trace) := by
  have hfirst : f.data = accepted (writeLog r.trace) := by
    unfold main at h
    split at h
    · rename_i r0 hst
      simp only [Option.some.injEq] at h
      subst h
      obtain ⟨_, _, _, _, hr⟩ := startup_inl_zero fd_ofile cfg env r0 hst hexit
      rw [hr] at hsink
      simp at hsink
    · rename_i s0 hst
      obtain ⟨_, _, _, sk, hsk, hs0⟩ := startup_inr _ _ _ _ hst
      split at h
      · simp at h
      · rename_i s code hl
        have hinv : LoopInv cfg env.input s0 := by rw [hs0]; exact LoopInv.start cfg env sk
        have := (copyLoop_spec fd_ofile cfg sfuel env.input fuel s0 s (some code) hinv hl).2
          code rfl
        simp only [Option.some.injEq] at h
        rw [← h] at hexit
        simp only at hexit
        omega
      · rename_i s hl
        simp only [Option.some.injEq] at h
        have hQ := copyLoop_sink_rule fd_ofile cfg sfuel
          (fun st log => st.data = accepted log) (fun st log => st.data = accepted log)
          (fun st st' log c ret hq hw _ => by
            simp only [fd_ofile, fd_write, Option.some.injEq] at hw
            have h1 := sysWrite_accepted st c
            rw [hw] at h1
            simp only at h1
            rw [h1, hq]
            simp [accepted])
          (fun st st' log ret hq hc _ => by
            simp only [fd_ofile, fd_close, Option.some.injEq, sysClose, Prod.mk.injEq] at hc
            rw [← hc.1]
            exact hq)
          fuel s0 s (by
            rw [hs0]
            simp only [fd_ofile, fd_dopen, Option.some.injEq] at hsk
            rw [← hsk]
            have : writeLog (prelude cfg) = [] := by
              unfold prelude; split <;> rfl
            rw [this]; rfl) hl
        have hz : (finish cfg env s).exit = 0 := by rw [h]; exact hexit
        obtain ⟨post, htr, hq⟩ := finish_trace cfg env s hz
        have hpost : writeLog post = [] := by
          simp only [writeLog, List.filterMap_eq_nil_iff]
          intro e he
          have := hq e he
          cases e <;> simp_all [Event.afterLoop, Event.writeCall]
        have hs : r.sink = some s.of := by
          rw [← h]
          rcases finish_zero cfg env s hz with ⟨_, e⟩ | ⟨_, _, _, e⟩ <;> rw [e]
        rw [hsink] at hs
        simp only [Option.some.injEq] at hs
        rw [hs, ← h, htr, writeLog_append, hpost, List.append_nil]
        exact hQ
  refine ⟨hfirst, fun hall => ?_⟩
  rw [hfirst, accepted_full _ hall, handed, writesOf_eq_writeLog]

end Hindsight
